import Mathlib

/-!
Verification of the `urlvalues` Go package (nahojer/urlvalues).

This file shallowly embeds the package's core — option handling
(`options.go`), tag parsing, struct-field flattening and type coercion
(`urlvalues.go`) — and proves the frozen specification claims about it.

Modelling conventions:
* Go strings are `List Char` (`Str`); Go's `strings` helpers
  (`Split`, `SplitN`, `Join`, `TrimSpace`, `Replacer`, `HasPrefix`)
  are re-implemented faithfully over `Str`.
* Go's runtime reflection is replaced by an explicit type universe `Ty`
  and value universe `Value`.  A `reflect.Value` handle is modelled as a
  `Ty` together with the `Value` currently stored at the handle;
  in-place mutation is modelled by returning the updated `Value`.
* `time.Time` is modelled by its calendar date (`GoDate`); time of day
  and location are omitted (they are preserved unchanged by every
  operation the claims mention).  `time.Now()` is an explicit
  parameter `now`, matching the spec's "injected clock".
* Machine integers are `Int`/`Nat` with explicit range checks matching
  `strconv`'s bit-size checks.
-/

namespace Urlvalues

/-- Go strings, modelled as lists of characters. -/
abbrev Str := List Char

/-- `unicode.IsSpace` restricted to the characters relevant here
(ASCII whitespace plus NEL and NBSP, as in Go's `asciiSpace` table and
`unicode.IsSpace`). -/
def goIsSpace (c : Char) : Bool :=
  c = ' ' || c = '\t' || c = '\n' || c = (Char.ofNat 11) || c = (Char.ofNat 12) ||
  c = '\r' || c = (Char.ofNat 0x85) || c = (Char.ofNat 0xA0)

/-- Go `strings.TrimSpace`. -/
def trimSpace (s : Str) : Str :=
  ((s.dropWhile goIsSpace).reverse.dropWhile goIsSpace).reverse

/-- Index of the first occurrence of `sep` as a contiguous substring of
`s` (`strings.Index`). -/
def findSub (sep : Str) : Str → Option Nat
  | [] => if sep = [] then some 0 else none
  | c :: rest =>
    if sep.isPrefixOf (c :: rest) then some 0
    else (findSub sep rest).map (· + 1)

/-- Fuelled worker for `goSplit`; the fuel only bounds the recursion and
is always supplied large enough to be irrelevant (each step consumes at
least one character of `s`). -/
def goSplitFuel : Nat → Str → Str → List Str
  | 0, _, s => [s]
  | fuel + 1, sep, s =>
    match findSub sep s with
    | none => [s]
    | some i => s.take i :: goSplitFuel fuel sep (s.drop (i + sep.length))

/-- Go `strings.Split` (for nonempty `sep`; empty `sep` explodes the
string into characters, as in Go). -/
def goSplit (sep s : Str) : List Str :=
  if sep = [] then s.map ([·]) else goSplitFuel (s.length + 1) sep s

/-- Go `strings.SplitN(s, sep, 2)`: split around the first occurrence
of `sep` only. -/
def goSplitN2 (sep s : Str) : List Str :=
  match findSub sep s with
  | none => [s]
  | some i => [s.take i, s.drop (i + sep.length)]

/-- Go `strings.Join`. -/
def goJoin (sep : Str) : List Str → Str
  | [] => []
  | [s] => s
  | s :: rest => s ++ sep ++ goJoin sep rest

/-- Go `strings.NewReplacer("+", " +", "-", " -").Replace`: both
patterns are single characters, so the replacement is a character-wise
expansion. -/
def goReplace : Str → Str
  | [] => []
  | c :: rest =>
    (if c = '+' then [' ', '+'] else if c = '-' then [' ', '-'] else [c]) ++ goReplace rest

/-- One `%q`-style quoted string, as used by `fmt.Errorf` in the
sources (escaping of exotic characters is not modelled; the inputs the
claims touch contain none). -/
def goQuote (s : Str) : Str := '"' :: s ++ ['"']

/-- `%q` applied to a single byte/rune. -/
def goQuoteChar (c : Char) : Str := [Char.ofNat 39, c, Char.ofNat 39]

/-! ### `strconv` number parsing -/

/-- Digit value of a character, as accepted by `strconv.ParseUint`
(decimal digits and case-insensitive letters). -/
def digitVal (c : Char) : Option Nat :=
  if 48 ≤ c.toNat ∧ c.toNat ≤ 57 then some (c.toNat - 48)
  else
    let l := c.toLower
    if 97 ≤ l.toNat ∧ l.toNat ≤ 122 then some (l.toNat - 97 + 10)
    else none

/-- `strconv`'s `lower`. -/
def chLower (c : Char) : Char := c.toLower

/-- State machine of `strconv.underscoreOK`: reports whether
underscores in a numeric literal are all syntactically correct. -/
def underscoreOKLoop (hex : Bool) : Char → List Char → Bool
  | saw, [] => saw ≠ '_'
  | saw, c :: rest =>
    if ('0' ≤ c ∧ c ≤ '9') ∨ (hex ∧ 'a' ≤ chLower c ∧ chLower c ≤ 'f') then
      underscoreOKLoop hex '0' rest
    else if c = '_' then
      if saw ≠ '0' then false else underscoreOKLoop hex '_' rest
    else if saw = '_' then false
    else underscoreOKLoop hex '!' rest

/-- `strconv.underscoreOK`. -/
def underscoreOK (s : Str) : Bool :=
  let s1 := match s with
    | c :: rest => if c = '-' ∨ c = '+' then rest else s
    | [] => s
  match s1 with
  | c0 :: c1 :: rest =>
    if c0 = '0' ∧ (chLower c1 = 'b' ∨ chLower c1 = 'o' ∨ chLower c1 = 'x') then
      underscoreOKLoop (chLower c1 = 'x') '0' rest
    else underscoreOKLoop false (Char.ofNat 94) s1
  | _ => underscoreOKLoop false (Char.ofNat 94) s1

/-- Digit-accumulation loop of `strconv.ParseUint`.  `base0` records
whether the caller passed base 0 (which permits underscores). -/
def parseUintLoop (base : Nat) (base0 : Bool) (maxVal : Nat) :
    Nat → List Char → Except Str Nat
  | n, [] => .ok n
  | n, c :: rest =>
    if c = '_' ∧ base0 then parseUintLoop base base0 maxVal n rest
    else
      match digitVal c with
      | none => .error "invalid syntax".toList
      | some d =>
        if d ≥ base then .error "invalid syntax".toList
        else
          let n1 := n * base + d
          if n1 > maxVal then .error "value out of range".toList
          else parseUintLoop base base0 maxVal n1 rest

/-- `strconv.ParseUint(s, base, bitSize)` (with `base` 0 or 2..36 and
the bit sizes used by this package). -/
def goParseUint (s : Str) (base bits : Nat) : Except Str Nat :=
  if s = [] then .error "invalid syntax".toList
  else
    let bits := if bits = 0 then 64 else bits
    let base0 := base = 0
    -- base-prefix detection for base 0
    let (b, s1) :=
      if base ≠ 0 then (base, s)
      else
        match s with
        | '0' :: c1 :: rest =>
          if chLower c1 = 'b' ∧ rest ≠ [] then (2, rest)
          else if chLower c1 = 'o' ∧ rest ≠ [] then (8, rest)
          else if chLower c1 = 'x' ∧ rest ≠ [] then (16, rest)
          else (8, c1 :: rest)
        | ['0'] => (8, ([] : List Char))
        | _ => (10, s)
    match parseUintLoop b base0 (2 ^ bits - 1) 0 s1 with
    | .error e => .error e
    | .ok n =>
      if base0 ∧ s.contains '_' ∧ ¬ underscoreOK s then .error "invalid syntax".toList
      else .ok n

/-- `strconv.ParseInt(s, base, bitSize)`. -/
def goParseInt (s : Str) (base bits : Nat) : Except Str Int :=
  match s with
  | [] => .error "invalid syntax".toList
  | c :: rest =>
    let (neg, s1) :=
      if c = '+' then (false, rest)
      else if c = '-' then (true, rest)
      else (false, c :: rest)
    let bits' := if bits = 0 then 64 else bits
    match goParseUint s1 base bits' with
    | .error e => .error e
    | .ok un =>
      let cutoff := 2 ^ (bits' - 1)
      if ¬ neg ∧ un ≥ cutoff then .error "value out of range".toList
      else if neg ∧ un > cutoff then .error "value out of range".toList
      else .ok (if neg then -(un : Int) else (un : Int))

/-- `strconv.Atoi`. -/
def goAtoi (s : Str) : Except Str Int := goParseInt s 10 0

/-- `strconv.ParseBool`. -/
def goParseBool (s : Str) : Except Str Bool :=
  if s = "1".toList ∨ s = "t".toList ∨ s = "T".toList ∨ s = "true".toList ∨
     s = "TRUE".toList ∨ s = "True".toList then .ok true
  else if s = "0".toList ∨ s = "f".toList ∨ s = "F".toList ∨ s = "false".toList ∨
     s = "FALSE".toList ∨ s = "False".toList then .ok false
  else .error "invalid syntax".toList

/-! ### Calendar dates and `time.Time.AddDate`

`time.Time` values are modelled by their calendar date.  `AddDate`
adds the deltas to the year/month/day and renormalises exactly as
`time.Date` does: month overflow first rolls into the year, then the
(possibly out-of-range) day is resolved through the absolute day
count, giving standard date-rollover semantics (e.g. Jan 31 + 1 month
= Mar 3 in a non-leap year, as in Go). -/

/-- A Go calendar date.  Time of day and location are omitted: every
operation the claims mention preserves them. -/
structure GoDate where
  year : Int
  month : Int
  day : Int
deriving DecidableEq, Repr

/-- The zero `time.Time` (January 1, year 1). -/
def goZeroDate : GoDate := ⟨1, 1, 1⟩

/-- `norm` from Go's `time` package: reduce `lo` into `[0, base)`,
carrying into `hi`.  (All divisions below have non-negative operands,
so Go's truncated division and Lean's division agree.) -/
def goNorm (hi lo base : Int) : Int × Int :=
  let (hi, lo) :=
    if lo < 0 then
      let n := (-lo - 1) / base + 1
      (hi - n, lo + n * base)
    else (hi, lo)
  if lo ≥ base then
    let n := lo / base
    (hi + n, lo - n * base)
  else (hi, lo)

/-- Absolute day number of a civil date (proleptic Gregorian calendar,
day 0 = 1970-01-01; `m` must be in `[1,12]`, `d` may be any integer —
out-of-range days simply shift the absolute count, exactly as in
`time.Date`). -/
def daysFromCivil (y m d : Int) : Int :=
  let y' := if m ≤ 2 then y - 1 else y
  let era := Int.fdiv y' 400
  let yoe := y' - era * 400
  let mp := if m > 2 then m - 3 else m + 9
  let doy := (153 * mp + 2) / 5 + d - 1
  let doe := yoe * 365 + yoe / 4 - yoe / 100 + doy
  era * 146097 + doe - 719468

/-- Civil date of an absolute day number; inverse of
`daysFromCivil` on normalised dates. -/
def civilFromDays (z0 : Int) : GoDate :=
  let z := z0 + 719468
  let era := Int.fdiv z 146097
  let doe := z - era * 146097
  let yoe := (doe - doe / 1460 + doe / 36524 - doe / 146096) / 365
  let y := yoe + era * 400
  let doy := doe - (365 * yoe + yoe / 4 - yoe / 100)
  let mp := (5 * doy + 2) / 153
  let d := doy - (153 * mp + 2) / 5 + 1
  let m := if mp < 10 then mp + 3 else mp - 9
  ⟨(if m ≤ 2 then y + 1 else y), m, d⟩

/-- The date-normalisation performed by `time.Date`. -/
def goDateNorm (year month day : Int) : GoDate :=
  let (y, m0) := goNorm year (month - 1) 12
  civilFromDays (daysFromCivil y (m0 + 1) day)

/-- `time.Time.AddDate(years, months, days)`. -/
def addDate (t : GoDate) (years months days : Int) : GoDate :=
  goDateNorm (t.year + years) (t.month + months) (t.day + days)

-- Sanity checks against Go's documented `AddDate` behaviour.
example : addDate ⟨2021, 1, 31⟩ 0 1 0 = ⟨2021, 3, 3⟩ := by decide
example : addDate ⟨2020, 1, 31⟩ 0 1 0 = ⟨2020, 3, 2⟩ := by decide
example : addDate ⟨2022, 6, 15⟩ (-2) 5 (-9) = ⟨2020, 11, 6⟩ := by decide
example : addDate ⟨2024, 3, 1⟩ 0 0 (-1) = ⟨2024, 2, 29⟩ := by decide

/-! ### `parseTime` (options.go) -/

/-- The token loop of `parseTime`'s `"now"`-relative branch: one part
must be `[+-]<digits><y|m|d>`; each recognised identifier *assigns*
(`years = sign * v`), so for repeated identifiers the last occurrence
wins.  Errors abort immediately, as in the source. -/
def parseNowParts : List Str → Int → Int → Int → Except Str (Int × Int × Int)
  | [], years, months, days => .ok (years, months, days)
  | part :: rest, years, months, days =>
    if part.length < 3 then .error "invalid \"now\" based format".toList
    else
      let sign? : Except Str Int :=
        match part.head? with
        | some '+' => .ok 1
        | some '-' => .ok (-1)
        | some c => .error ("invalid sign ".toList ++ goQuoteChar c)
        | none => .error "invalid \"now\" based format".toList
      match sign? with
      | .error e => .error e
      | .ok sign =>
        let digits := (part.drop 1).dropLast
        match goAtoi digits with
        | .error _ => .error (goQuote digits ++ " is not a valid integer".toList)
        | .ok v =>
          match part.getLast? with
          | some 'y' => parseNowParts rest (sign * v) months days
          | some 'm' => parseNowParts rest years (sign * v) days
          | some 'd' => parseNowParts rest years months (sign * v)
          | some c =>
            .error ("invalid year/month/day identifier ".toList ++ goQuoteChar c)
          | none => .error "invalid \"now\" based format".toList

/-- The named layout constants of Go's `time` package, as resolved by
`parseTime`'s trailing `switch`; an unrecognised name is used
literally as a custom layout. -/
def resolveLayout (layout : Str) : Str :=
  if layout = [] ∨ layout = "Layout".toList then
    "01/02 03:04:05PM ".toList ++ [Char.ofNat 39] ++ "06 -0700".toList
  else if layout = "ANSIC".toList then "Mon Jan _2 15:04:05 2006".toList
  else if layout = "UnixDate".toList then "Mon Jan _2 15:04:05 MST 2006".toList
  else if layout = "RubyDate".toList then "Mon Jan 02 15:04:05 -0700 2006".toList
  else if layout = "RFC822".toList then "02 Jan 06 15:04 MST".toList
  else if layout = "RFC822Z".toList then "02 Jan 06 15:04 -0700".toList
  else if layout = "RFC850".toList then "Monday, 02-Jan-06 15:04:05 MST".toList
  else if layout = "RFC1123".toList then "Mon, 02 Jan 2006 15:04:05 MST".toList
  else if layout = "RFC1123Z".toList then "Mon, 02 Jan 2006 15:04:05 -0700".toList
  else if layout = "RFC3339".toList then "2006-01-02T15:04:05Z07:00".toList
  else if layout = "RFC3339Nano".toList then "2006-01-02T15:04:05.999999999Z07:00".toList
  else if layout = "Kitchen".toList then "3:04PM".toList
  else layout

/-- Go stdlib `time.Parse` (absolute-layout parsing).  Every claim
about `parseTime` concerns only its `"now"`-relative branch; stdlib
layout parsing is outside the repository and is modelled as a parse
failure that identifies the attempted layout/value pair. -/
def goTimeParse (layout value : Str) : Except Str GoDate :=
  .error ("parsing time ".toList ++ goQuote value ++ " as ".toList ++ goQuote layout ++
    ": not modelled".toList)

/-- `parseTime` from options.go.  `now` is the injected clock. -/
def parseTime (layout value : Str) (now : GoDate) : Except Str GoDate :=
  if value = "now".toList then .ok now
  else if ("now".toList).isPrefixOf value then
    let v1 := trimSpace (value.drop 3)
    let v2 := trimSpace (goReplace v1)
    let parts := goSplit [' '] v2
    match parseNowParts parts 0 0 0 with
    | .error e => .error e
    | .ok (y, m, d) => .ok (addDate now y m d)
  else
    goTimeParse (resolveLayout layout) value

-- Sanity checks mirroring the repository's own `parseTime` tests.
example : parseTime [] "now".toList ⟨2026, 10, 11⟩ = .ok ⟨2026, 10, 11⟩ := rfl
example : parseTime [] "now-1y".toList ⟨2026, 10, 11⟩ = .ok ⟨2025, 10, 11⟩ := rfl
example : parseTime [] "now-9d-2y+5m".toList ⟨2026, 10, 11⟩ = .ok ⟨2025, 3, 2⟩ := rfl
example : parseTime [] "now+1y+2y".toList ⟨2026, 10, 11⟩ = .ok ⟨2028, 10, 11⟩ := rfl
example : (parseTime [] "now+1q".toList ⟨2026, 10, 11⟩).isOk = false := rfl
example : (parseTime [] "now+y".toList ⟨2026, 10, 11⟩).isOk = false := rfl

/-! ### The reflection universe

Go's runtime reflection is replaced by an explicit universe of the
field types this package dispatches on.  A struct type carries, per
field, whether the field is settable (exported), the field name, its
`urlvalue` tag string, and its type.  A *custom* type stands for a
(non-struct) user type providing a text/binary custom decode
capability (`encoding.TextUnmarshaler` / `BinaryUnmarshaler`); its
modelled decode records the raw bytes and always succeeds.
`float` and `time.Duration` fields and pointer-to-unmarshaler types
are outside the modelled universe (no claim mentions them). -/

inductive Ty : Type where
  | str
  | int (bits : Nat)
  | uint (bits : Nat)
  | bool
  | time
  | custom
  | ptr (inner : Ty)
  | slice (elem : Ty)
  | mp (key val : Ty)
  | strct (fields : List (Bool × Str × Str × Ty))
  | other
deriving Repr

/-- Runtime values of the universe.  A nil pointer is `.nil`; nil
slices/maps (their zero values) are `none`, non-nil ones `some`
(reflect's `IsZero` distinguishes these).  Map contents are
association lists read right-to-left (the last binding for a key
shadows earlier ones, matching `SetMapIndex` overwrite). -/
inductive Value : Type where
  | str (s : Str)
  | int (n : Int)
  | uint (n : Nat)
  | bool (b : Bool)
  | time (t : GoDate)
  | custom (data : Str)
  | nil
  | ptr (v : Value)
  | slice (elems : Option (List Value))
  | mp (entries : Option (List (Value × Value)))
  | strct (fields : List Value)
  | other
deriving Repr

/-- The zero value of a type (`reflect.New(typ).Elem()`). -/
def zeroValue : Ty → Value
  | .str => .str []
  | .int _ => .int 0
  | .uint _ => .uint 0
  | .bool => .bool false
  | .time => .time goZeroDate
  | .custom => .custom []
  | .ptr _ => .nil
  | .slice _ => .slice none
  | .mp _ _ => .mp none
  | .strct fs => .strct (fs.attach.map (fun x => zeroValue x.1.2.2.2))
  | .other => .other
decreasing_by
  obtain ⟨⟨b, n, tg, t⟩, hmem⟩ := x
  have h := List.sizeOf_lt_of_mem hmem
  simp at h ⊢
  omega

/-- `reflect.Value.IsZero`. -/
def isZero : Value → Bool
  | .str s => s = []
  | .int n => n = 0
  | .uint n => n = 0
  | .bool b => !b
  | .time t => t = goZeroDate
  | .custom s => s = []
  | .nil => true
  | .ptr _ => false
  | .slice o => o.isNone
  | .mp o => o.isNone
  | .strct vs => vs.attach.all (fun x => isZero x.1)
  | .other => true
decreasing_by
  obtain ⟨v, hmem⟩ := x
  have h := List.sizeOf_lt_of_mem hmem
  simp at h ⊢
  omega

/-- Whether `reflect.Kind()` of the type is `Struct` (`time.Time` is a
struct type). -/
def tyKindStruct : Ty → Bool
  | .strct _ => true
  | .time => true
  | _ => false

/-- `reflect.Type.String()`, simplified renderings (no claim inspects
the type name carried inside a `FieldError`). -/
def Ty.typeString : Ty → Str
  | .str => "string".toList
  | .int bits =>
    if bits = 8 then "int8".toList else if bits = 16 then "int16".toList
    else if bits = 32 then "int32".toList else if bits = 64 then "int64".toList
    else "int".toList
  | .uint bits =>
    if bits = 8 then "uint8".toList else if bits = 16 then "uint16".toList
    else if bits = 32 then "uint32".toList else if bits = 64 then "uint64".toList
    else "uint".toList
  | .bool => "bool".toList
  | .time => "time.Time".toList
  | .custom => "urlvalues_test.Custom".toList
  | .ptr inner => '*' :: inner.typeString
  | .slice elem => '[' :: ']' :: elem.typeString
  | .mp k v => "map[".toList ++ k.typeString ++ [']'] ++ v.typeString
  | .strct _ => "struct".toList
  | .other => "other".toList

/-! ### Field options and parse options (options.go) -/

/-- `fieldOptions`: resolved per-field tag options. -/
structure fieldOptions where
  key : Str := []
  defaultValue : Str := []
  layout : Str := []
deriving DecidableEq, Repr

/-- `ParseOptions` (options.go): the configurable delimiter.  `none`
models the unset (`nil`) pointer. -/
structure ParseOptions where
  delim : Option Str := none
deriving DecidableEq, Repr

/-- `ParseOptions.Delim`: the delimiter used to split slice/map string
representations; `;` when unset or set to the empty string. -/
def ParseOptions.Delim (o : ParseOptions) : Str :=
  match o.delim with
  | some d => if d ≠ [] then d else [';']
  | none => [';']

/-- `WithDelimiter(s)` applied to fresh options. -/
def WithDelimiter (s : Str) : ParseOptions := ⟨some s⟩

/-! ### The type coercion engine: `processField` (urlvalues.go)

`processField(settingDefault, value, field, fOpts, pOpts)` from the
source, with the mutable `reflect.Value` handle split into the
handle's type `ty` and the value `cur` currently stored there; the
updated stored value is returned.  Dispatch order is the source's:
`time.Time` first, then the custom decode capability, then one level
of pointer dereference (allocating a missing pointee), then the
default-vs-non-zero skip, then the kind switch. -/

/-- `field.Set(mp)` entry insertion, `SetMapIndex`: appending to an
association list read right-to-left realises overwrite-on-duplicate. -/
def mapSet (entries : List (Value × Value)) (k v : Value) : List (Value × Value) :=
  entries ++ [(k, v)]

theorem Ty.sizeOf_pos (t : Ty) : 0 < sizeOf t := by
  cases t <;> simp

/-- The single pointer dereference of `processField`: a nil pointer
gets a freshly allocated zero pointee (`reflect.New`), a non-nil one
is dereferenced. -/
def derefPointee (inner : Ty) (cur : Value) : Value :=
  match cur with
  | .nil => zeroValue inner
  | .ptr v => v
  | v => v

mutual

def processField (settingDefault : Bool) (value : Str) (ty : Ty) (cur : Value)
    (fOpts : fieldOptions) (pOpts : ParseOptions) (now : GoDate) : Except Str Value :=
  match ty with
  | .time =>
    -- typ.PkgPath() == "time" && typ.Name() == "Time"
    match parseTime fOpts.layout value now with
    | .error e => .error e
    | .ok t => .ok (.time t)
  | .custom =>
    -- encoding.TextUnmarshaler / BinaryUnmarshaler: the modelled
    -- capability records the raw bytes and succeeds
    .ok (.custom value)
  | .ptr inner =>
    -- dereference pointer, allocating a zero pointee when nil
    if settingDefault ∧ ¬ isZero (derefPointee inner cur) then .ok cur
    else
      match coerceKind value inner (derefPointee inner cur) fOpts pOpts now with
      | .error e => .error e
      | .ok v => .ok (.ptr v)
  | t =>
    if settingDefault ∧ ¬ isZero cur then .ok cur
    else coerceKind value t cur fOpts pOpts now
termination_by (2 * sizeOf ty + 1, 0)

/-- The trailing `switch typ.Kind()` of `processField` (after the
single pointer dereference). -/
def coerceKind (value : Str) (ty : Ty) (cur : Value) (fOpts : fieldOptions)
    (pOpts : ParseOptions) (now : GoDate) : Except Str Value :=
  match ty with
  | .str => .ok (.str value)
  | .int bits =>
    match goParseInt value 0 bits with
    | .error e => .error e
    | .ok n => .ok (.int n)
  | .uint bits =>
    match goParseUint value 0 bits with
    | .error e => .error e
    | .ok n => .ok (.uint n)
  | .bool =>
    match goParseBool value with
    | .error e => .error e
    | .ok b => .ok (.bool b)
  | .slice elemTy =>
    match processElems elemTy (goSplit pOpts.Delim value) fOpts pOpts now with
    | .error e => .error e
    | .ok vs => .ok (.slice (some vs))
  | .mp kTy vTy =>
    if (trimSpace value).length ≠ 0 then
      match processPairs kTy vTy (goSplit pOpts.Delim value) [] fOpts pOpts now with
      | .error e => .error e
      | .ok entries => .ok (.mp (some entries))
    else .ok (.mp (some []))
  | _ =>
    -- unsupported kinds (struct kinds reaching this switch included): no-op
    .ok cur
termination_by (2 * sizeOf ty, 0)

/-- The element loop of the slice case: coerce each substring into a
fresh zero element, in order, aborting on the first error. -/
def processElems (elemTy : Ty) (parts : List Str) (fOpts : fieldOptions)
    (pOpts : ParseOptions) (now : GoDate) : Except Str (List Value) :=
  match parts with
  | [] => .ok []
  | p :: rest =>
    match processField false p elemTy (zeroValue elemTy) fOpts pOpts now with
    | .error e => .error e
    | .ok v =>
      match processElems elemTy rest fOpts pOpts now with
      | .error e => .error e
      | .ok vs => .ok (v :: vs)
termination_by (2 * sizeOf elemTy + 1, parts.length + 1)

/-- The pair loop of the map case: each pair is split with
`strings.Split(pair, ":")` and must yield exactly two parts. -/
def processPairs (kTy vTy : Ty) (pairs : List Str) (acc : List (Value × Value))
    (fOpts : fieldOptions) (pOpts : ParseOptions) (now : GoDate) :
    Except Str (List (Value × Value)) :=
  match pairs with
  | [] => .ok acc
  | pair :: rest =>
    match goSplit [':'] pair with
    | [k, v] =>
      match processField false k kTy (zeroValue kTy) fOpts pOpts now with
      | .error e => .error e
      | .ok kVal =>
        match processField false v vTy (zeroValue vTy) fOpts pOpts now with
        | .error e => .error e
        | .ok vVal => processPairs kTy vTy rest (mapSet acc kVal vVal) fOpts pOpts now
    | _ => .error ("invalid map item: ".toList ++ goQuote pair)
termination_by (2 * (sizeOf kTy + sizeOf vTy) + 1, pairs.length + 1)
decreasing_by
  all_goals
    have h1 := Ty.sizeOf_pos kTy
    have h2 := Ty.sizeOf_pos vTy
    decreasing_tactic

end

/-! ### The tag directive parser: `parseTag` (urlvalues.go) -/

/-- The indexed loop over the comma-separated tag segments.  A
colon-free segment sets the key when it is the first segment; a
`name:value` segment with a (trimmed-)empty value is a format error;
recognised names `default`/`layout` set their option; unrecognised
names are ignored. -/
def parseTagLoop : Nat → fieldOptions → List Str → Except Str fieldOptions
  | _, fOpts, [] => .ok fOpts
  | i, fOpts, tagPart :: rest =>
    match goSplitN2 [':'] tagPart with
    | [p] =>
      let tagProp := trimSpace p
      parseTagLoop (i + 1) (if i = 0 then { fOpts with key := tagProp } else fOpts) rest
    | [p, v] =>
      let tagProp := trimSpace p
      let tagPropVal := trimSpace v
      if tagPropVal = [] then
        .error ("tag ".toList ++ goQuote tagProp ++ " missing a value".toList)
      else
        parseTagLoop (i + 1)
          (if tagProp = "default".toList then { fOpts with defaultValue := tagPropVal }
           else if tagProp = "layout".toList then { fOpts with layout := tagPropVal }
           else fOpts) rest
    | _ => parseTagLoop (i + 1) fOpts rest

/-- `parseTag` from urlvalues.go. -/
def parseTag (tagStr : Str) : Except Str fieldOptions :=
  if tagStr = [] then .ok {} else parseTagLoop 0 {} (goSplit [','] tagStr)

example : parseTag [] = .ok {} := rfl
example : parseTag "myName,default:42".toList =
    .ok { key := "myName".toList, defaultValue := "42".toList } := rfl
example : parseTag "myName,layout:RFC850".toList =
    .ok { key := "myName".toList, layout := "RFC850".toList } := rfl
example : (parseTag "x,default:".toList).isOk = false := rfl

/-! ### The two-tier error model (urlvalues.go) -/

/-- `FieldError`: innermost coercion failure. -/
structure FieldError where
  fieldName : Str
  typeName : Str
  value : Str
  err : Str
deriving DecidableEq, Repr

/-- `ParseError`: wraps a `FieldError` and records the `url.Values`
key that was being read. -/
structure ParseError where
  FieldName : Str
  Key : Str
  fe : FieldError
deriving DecidableEq, Repr

/-- The errors `Unmarshal` can return. -/
inductive UErr where
  /-- `ErrInvalidStruct`: target is not a struct pointer. -/
  | invalidStruct
  /-- `errors.New("urlvalues: no fields identified in target struct")`. -/
  | noFields
  /-- `fmt.Errorf("urlvalues: parsing tags for field %s: %w", ...)`. -/
  | tagErr (fieldName : Str) (err : Str)
  /-- `fmt.Errorf("urlvalues: %w", err)` around a nested flattening error. -/
  | nested (e : UErr)
  /-- A bare `FieldError` (default-value coercion failures). -/
  | fieldErr (e : FieldError)
  /-- A `ParseError` (real-input coercion failures). -/
  | parseErr (e : ParseError)
deriving DecidableEq, Repr

/-! ### The field flattener: `extractFields` (urlvalues.go) -/

/-- `field`: one flattened target field — its name, the handle
(modelled as type plus currently stored value) and resolved options. -/
structure field where
  name : Str
  fieldTy : Ty
  fieldVal : Value
  options : fieldOptions

/-- The pointer-drilling loop of `extractFields`: descend through
pointers until bottoming out at a type or nil; a nil pointer to a
struct is allocated (zeroed) and descended into, a nil pointer to a
non-struct is left alone. -/
def drill : Ty → Value → Ty × Value
  | .ptr inner, v =>
    match v with
    | .nil =>
      if tyKindStruct inner then drill inner (zeroValue inner)
      else (.ptr inner, .nil)
    | .ptr pv => drill inner pv
    | w => (.ptr inner, w)
  | t, v => (t, v)

/-- Pointer drilling never grows the type. -/
theorem drill_fst_sizeOf_le : ∀ (t : Ty) (v : Value), sizeOf (drill t v).1 ≤ sizeOf t
  | .ptr inner, .nil => by
    simp only [drill]
    split
    · exact le_trans (drill_fst_sizeOf_le inner _) (by simp)
    · simp
  | .ptr inner, .ptr pv => by
    have h := drill_fst_sizeOf_le inner pv
    simp only [drill]
    simp
    omega
  | .ptr _, .str _ => by simp [drill]
  | .ptr _, .int _ => by simp [drill]
  | .ptr _, .uint _ => by simp [drill]
  | .ptr _, .bool _ => by simp [drill]
  | .ptr _, .time _ => by simp [drill]
  | .ptr _, .custom _ => by simp [drill]
  | .ptr _, .slice _ => by simp [drill]
  | .ptr _, .mp _ => by simp [drill]
  | .ptr _, .strct _ => by simp [drill]
  | .ptr _, .other => by simp [drill]
  | .str, _ => by simp [drill]
  | .int _, _ => by simp [drill]
  | .uint _, _ => by simp [drill]
  | .bool, _ => by simp [drill]
  | .time, _ => by simp [drill]
  | .custom, _ => by simp [drill]
  | .slice _, _ => by simp [drill]
  | .mp _ _, _ => by simp [drill]
  | .strct _, _ => by simp [drill]
  | .other, _ => by simp [drill]

mutual

/-- `extractFields(target)`: fails with `ErrInvalidStruct` unless the
target is a (non-nil) pointer to a struct, then flattens the struct's
fields. -/
def extractFields (t : Ty) (v : Value) : Except UErr (List field) :=
  match t, v with
  | .ptr (.strct fs), .ptr (.strct vs) => extractLoop fs vs
  | .ptr .time, .ptr _ =>
    -- time.Time is a struct type whose fields are all unexported, so
    -- iterating them (`CanSet` false) skips every one
    .ok []
  | _, _ => .error .invalidStruct
termination_by sizeOf t

/-- The field loop of `extractFields`.  Non-settable fields and fields
tagged `-` are skipped; tag parse errors abort annotated with the
field name; a drilled-down struct without a custom decode capability
is flattened recursively and its descriptors appended; anything else
becomes one descriptor. -/
def extractLoop : List (Bool × Str × Str × Ty) → List Value → Except UErr (List field)
  | [], _ => .ok []
  | (settable, fname, tag, fty) :: fs, vs =>
    let v0 := vs.headD (zeroValue fty)
    let vrest := vs.tail
    if ¬ settable ∨ tag = "-".toList then extractLoop fs vrest
    else
      match parseTag tag with
      | .error e => .error (.tagErr fname e)
      | .ok fieldOpts =>
        match hdr : drill fty v0 with
        | (.strct innerFs, dv) =>
          -- a struct that can't deserialise itself: drill down
          match extractFields (.ptr (.strct innerFs)) (.ptr dv) with
          | .error e => .error (.nested e)
          | .ok innerFields =>
            match extractLoop fs vrest with
            | .error e => .error e
            | .ok tailFields => .ok (innerFields ++ tailFields)
        | (dty, dv) =>
          match extractLoop fs vrest with
          | .error e => .error e
          | .ok tailFields =>
            .ok ({ name := fname, fieldTy := dty, fieldVal := dv,
                   options := fieldOpts } :: tailFields)
termination_by fs0 => sizeOf fs0
decreasing_by
  all_goals simp_wf
  have h := drill_fst_sizeOf_le fty (vs.headD (zeroValue fty))
  rw [hdr] at h
  simp at h ⊢
  omega

end

/-! ### The orchestrator: `Unmarshal` (urlvalues.go) -/

/-- The input multimap (`url.Values`), an association list from keys
to their ordered value lists. -/
abbrev Multimap := List (Str × List Str)

/-- The value handed to coercion for a key whose lookup succeeded:
the sole value if there is exactly one, otherwise all values joined
with the configured delimiter. -/
def joinedValue (pOpts : ParseOptions) : List Str → Str
  | [] => []
  | v :: vs => if vs = [] then v else goJoin pOpts.Delim (v :: vs)

/-- The loop body of `Unmarshal` for one flattened field: apply the
default value (if any) with `settingDefault = true` — a failure is a
bare `FieldError` — then look up the field's key (tag key, falling
back to the field name), and if present and non-empty coerce the
joined value with `settingDefault = false` — a failure is a
`ParseError` wrapping a `FieldError` and recording the key. -/
def processOneField (data : Multimap) (pOpts : ParseOptions) (now : GoDate)
    (f : field) : Except UErr field :=
  let afterDefault : Except UErr Value :=
    if f.options.defaultValue ≠ [] then
      match processField true f.options.defaultValue f.fieldTy f.fieldVal
          f.options pOpts now with
      | .error err =>
        .error (.fieldErr ⟨f.name, f.fieldTy.typeString, f.options.defaultValue, err⟩)
      | .ok v => .ok v
    else .ok f.fieldVal
  match afterDefault with
  | .error e => .error e
  | .ok v1 =>
    let key := if f.options.key = [] then f.name else f.options.key
    match data.lookup key with
    | none => .ok { f with fieldVal := v1 }
    | some values =>
      if values = [] then .ok { f with fieldVal := v1 }
      else
        let value := joinedValue pOpts values
        match processField false value f.fieldTy v1 f.options pOpts now with
        | .error err =>
          .error (.parseErr ⟨f.name, key, ⟨f.name, f.fieldTy.typeString, value, err⟩⟩)
        | .ok v2 => .ok { f with fieldVal := v2 }

/-- The field loop of `Unmarshal`; the first failure aborts the call
(fields already processed keep their new values — modelled by
returning the final per-field values). -/
def processFields (data : Multimap) (pOpts : ParseOptions) (now : GoDate) :
    List field → Except UErr (List field)
  | [] => .ok []
  | f :: rest =>
    match processOneField data pOpts now f with
    | .error e => .error e
    | .ok f' =>
      match processFields data pOpts now rest with
      | .error e => .error e
      | .ok rest' => .ok (f' :: rest')

/-- `Unmarshal(data, v, setParseOpts...)`.  The variadic option
functions have already been applied, yielding `pOpts`; `now` is the
injected clock.  In-place mutation of the target is modelled by
returning the flattened fields with their final values. -/
def Unmarshal (data : Multimap) (targetTy : Ty) (targetVal : Value)
    (pOpts : ParseOptions) (now : GoDate) : Except UErr (List field) :=
  match extractFields targetTy targetVal with
  | .error e => .error e
  | .ok fields =>
    if fields.length = 0 then .error .noFields
    else processFields data pOpts now fields

-- Sanity checks of the embedding on concrete runs.
example :
    processField false "42".toList (.int 64) (.int 0) {} {} ⟨2026, 1, 1⟩ =
      .ok (.int 42) := by
  have h : goParseInt "42".toList 0 64 = .ok 42 := rfl
  simp only [processField, coerceKind, h]
  simp

example :
    processField false "a;b".toList (.slice .str) (.slice none) {} {} ⟨2026, 1, 1⟩ =
      .ok (.slice (some [.str ['a'], .str ['b']])) := by
  have h : goSplit (ParseOptions.Delim {}) "a;b".toList = [['a'], ['b']] := rfl
  simp only [processField, coerceKind, processElems, h, zeroValue]
  simp

example :
    processField false "a:b:c".toList (.mp .str .str) (.mp none) {} {} ⟨2026, 1, 1⟩ =
      .error ("invalid map item: ".toList ++ goQuote "a:b:c".toList) := by
  have h1 : (trimSpace "a:b:c".toList).length ≠ 0 := by decide
  have h2 : goSplit (ParseOptions.Delim {}) "a:b:c".toList = ["a:b:c".toList] := rfl
  have h3 : goSplit [':'] "a:b:c".toList = [['a'], ['b'], ['c']] := rfl
  simp only [processField, coerceKind, processPairs, h2, h3, if_pos h1]
  rfl

/-! ### General lemmas about the string helpers -/

theorem goSplitFuel_nil (c : Char) : ∀ fuel, goSplitFuel fuel [c] [] = [[]] := by
  intro fuel
  cases fuel with
  | zero => rfl
  | succ n => simp [goSplitFuel, findSub]

theorem findSub_single_none_iff (c : Char) (s : Str) :
    findSub [c] s = none ↔ c ∉ s := by
  induction s with
  | nil => simp [findSub]
  | cons a rest ih =>
    rcases eq_or_ne c a with h | h
    · subst h
      simp [findSub, List.isPrefixOf]
    · simp [findSub, List.isPrefixOf, (by simpa using h.symm : (a == c) = false), ih, h]

theorem findSub_first (c : Char) (s1 s2 : Str) (h : c ∉ s1) :
    findSub [c] (s1 ++ c :: s2) = some s1.length := by
  induction s1 with
  | nil => simp [findSub, List.isPrefixOf]
  | cons a rest ih =>
    have hca : c ≠ a := fun hh => h (hh ▸ List.mem_cons_self a rest)
    have hrest : c ∉ rest := fun hh => h (List.mem_cons_of_mem a hh)
    simp [findSub, List.isPrefixOf, (by simpa using hca.symm : (a == c) = false), ih hrest]
    exact hca

theorem goSplitFuel_single_no (c : Char) (s : Str) (h : c ∉ s) :
    ∀ fuel, goSplitFuel fuel [c] s = [s] := by
  intro fuel
  cases fuel with
  | zero => rfl
  | succ n => simp [goSplitFuel, (findSub_single_none_iff c s).2 h]

theorem goSplitFuel_single_cons (c : Char) (s1 s2 : Str) (h : c ∉ s1) (fuel : Nat) :
    goSplitFuel (fuel + 1) [c] (s1 ++ c :: s2) = s1 :: goSplitFuel fuel [c] s2 := by
  have hd : (s1 ++ c :: s2).drop (s1.length + 1) = s2 := by
    have : s1 ++ c :: s2 = (s1 ++ [c]) ++ s2 := by simp
    rw [this, show s1.length + 1 = (s1 ++ [c]).length by simp, List.drop_left]
  simp [goSplitFuel, findSub_first c s1 s2 h, List.take_left, hd]

theorem goSplit_single_ne_nil (c : Char) (s : Str) : goSplit [c] s ≠ [] := by
  unfold goSplit
  rw [if_neg (by simp)]
  unfold goSplitFuel
  split <;> simp

/-- First-occurrence decomposition of a list at an element. -/
theorem exists_first_split (c : Char) (s : Str) (h : c ∈ s) :
    ∃ s1 s2, s = s1 ++ c :: s2 ∧ c ∉ s1 := by
  induction s with
  | nil => cases h
  | cons a rest ih =>
    rcases eq_or_ne c a with rfl | hne
    · exact ⟨[], rest, rfl, by simp⟩
    · rcases ih (by simpa [hne] using h) with ⟨s1, s2, heq, hnm⟩
      exact ⟨a :: s1, s2, by simp [heq], by simp [hne, hnm]⟩

theorem goSplitFuel_congr_aux (c : Char) :
    ∀ (n : Nat) (s : Str), s.length ≤ n → ∀ f1 f2, s.length ≤ f1 → s.length ≤ f2 →
      goSplitFuel f1 [c] s = goSplitFuel f2 [c] s := by
  intro n
  induction n with
  | zero =>
    intro s hs f1 f2 _ _
    have : s = [] := List.eq_nil_of_length_eq_zero (Nat.le_zero.1 hs)
    subst this
    rw [goSplitFuel_nil, goSplitFuel_nil]
  | succ n ih =>
    intro s hs f1 f2 h1 h2
    by_cases hc : c ∈ s
    · obtain ⟨s1, s2, rfl, hnm⟩ := exists_first_split c s hc
      have hlen : s1.length + s2.length + 1 = (s1 ++ c :: s2).length := by simp; omega
      obtain ⟨f1', rfl⟩ : ∃ k, f1 = k + 1 := ⟨f1 - 1, by omega⟩
      obtain ⟨f2', rfl⟩ : ∃ k, f2 = k + 1 := ⟨f2 - 1, by omega⟩
      rw [goSplitFuel_single_cons c s1 s2 hnm, goSplitFuel_single_cons c s1 s2 hnm]
      have hs2 : s2.length ≤ n := by simp at hs; omega
      rw [ih s2 hs2 f1' f2' (by simp at h1; omega) (by simp at h2; omega)]
    · rw [goSplitFuel_single_no c s hc, goSplitFuel_single_no c s hc]

theorem goSplitFuel_eq_goSplit (c : Char) (s : Str) (fuel : Nat)
    (h : s.length ≤ fuel) : goSplitFuel fuel [c] s = goSplit [c] s := by
  unfold goSplit
  rw [if_neg (by simp)]
  exact goSplitFuel_congr_aux c s.length s le_rfl fuel (s.length + 1) h (by omega)

theorem goSplit_single_cons (c : Char) (s1 s2 : Str) (h : c ∉ s1) :
    goSplit [c] (s1 ++ c :: s2) = s1 :: goSplit [c] s2 := by
  unfold goSplit
  rw [if_neg (by simp), if_neg (by simp)]
  have hlen : (s1 ++ c :: s2).length + 1 = (s1.length + s2.length + 1) + 1 := by
    simp
    omega
  rw [hlen, goSplitFuel_single_cons c s1 s2 h]
  rw [goSplitFuel_congr_aux c s2.length s2 le_rfl (s1.length + s2.length + 1)
    (s2.length + 1) (by omega) (by omega)]

theorem goSplit_single_no (c : Char) (s : Str) (h : c ∉ s) :
    goSplit [c] s = [s] := by
  unfold goSplit
  rw [if_neg (by simp)]
  exact goSplitFuel_single_no c s h _

/-- The number of split parts is the separator count plus one. -/
theorem goSplit_single_length (c : Char) : ∀ (n : Nat) (s : Str), s.length ≤ n →
    (goSplit [c] s).length = s.count c + 1 := by
  intro n
  induction n with
  | zero =>
    intro s hs
    have : s = [] := List.eq_nil_of_length_eq_zero (Nat.le_zero.1 hs)
    subst this
    simp [goSplit_single_no c [] (by simp)]
  | succ n ih =>
    intro s hs
    by_cases hc : c ∈ s
    · obtain ⟨s1, s2, rfl, hnm⟩ := exists_first_split c s hc
      rw [goSplit_single_cons c s1 s2 hnm]
      have hs2 : s2.length ≤ n := by simp at hs; omega
      simp [ih s2 hs2, List.count_append, List.count_eq_zero.2 hnm]
    · simp [goSplit_single_no c s hc, List.count_eq_zero.2 hc]

/-- Splitting the join of separator-free parts recovers the parts. -/
theorem goSplit_goJoin (c : Char) : ∀ (parts : List Str), parts ≠ [] →
    (∀ p ∈ parts, c ∉ p) → goSplit [c] (goJoin [c] parts) = parts := by
  intro parts
  induction parts with
  | nil => intro h; cases h rfl
  | cons p rest ih =>
    intro _ hall
    cases rest with
    | nil => exact goSplit_single_no c p (hall p (by simp))
    | cons q rest' =>
      have hjoin : goJoin [c] (p :: q :: rest') = p ++ c :: goJoin [c] (q :: rest') := by
        simp [goJoin]
      rw [hjoin, goSplit_single_cons c p _ (hall p (by simp))]
      rw [ih (by simp) (fun x hx => hall x (List.mem_cons_of_mem p hx))]

/-- Every part produced by a single-character split is separator-free. -/
theorem not_mem_of_mem_goSplit (c : Char) : ∀ (n : Nat) (s : Str), s.length ≤ n →
    ∀ p ∈ goSplit [c] s, c ∉ p := by
  intro n
  induction n with
  | zero =>
    intro s hs p hp
    have : s = [] := List.eq_nil_of_length_eq_zero (Nat.le_zero.1 hs)
    subst this
    rw [goSplit_single_no c [] (by simp)] at hp
    simp at hp
    simp [hp]
  | succ n ih =>
    intro s hs p hp
    by_cases hc : c ∈ s
    · obtain ⟨s1, s2, rfl, hnm⟩ := exists_first_split c s hc
      rw [goSplit_single_cons c s1 s2 hnm, List.mem_cons] at hp
      rcases hp with hp | hp
      · exact hp ▸ hnm
      · exact ih s2 (by simp at hs; omega) p hp
    · rw [goSplit_single_no c s hc] at hp
      simp at hp
      exact hp ▸ hc

theorem goSplitN2_no (c : Char) (s : Str) (h : c ∉ s) : goSplitN2 [c] s = [s] := by
  simp [goSplitN2, (findSub_single_none_iff c s).2 h]

theorem goSplitN2_cons (c : Char) (s1 s2 : Str) (h : c ∉ s1) :
    goSplitN2 [c] (s1 ++ c :: s2) = [s1, s2] := by
  have hd : (s1 ++ c :: s2).drop (s1.length + 1) = s2 := by
    have he : s1 ++ c :: s2 = (s1 ++ [c]) ++ s2 := by simp
    rw [he, show s1.length + 1 = (s1 ++ [c]).length by simp, List.drop_left]
  simp [goSplitN2, findSub_first c s1 s2 h, List.take_left, hd]

/-- Structure of a successful first-occurrence search. -/
theorem findSub_single_some (c : Char) : ∀ (s : Str) (i : Nat),
    findSub [c] s = some i → s = s.take i ++ c :: s.drop (i + 1) ∧ c ∉ s.take i := by
  intro s
  induction s with
  | nil => intro i h; simp [findSub] at h
  | cons a rest ih =>
    intro i h
    by_cases hpre : ([c].isPrefixOf (a :: rest) : Bool)
    · have hca : c = a := by
        simpa [List.isPrefixOf] using hpre
      rw [findSub, if_pos hpre] at h
      cases h
      simp [hca]
    · rw [findSub, if_neg hpre] at h
      rcases Option.map_eq_some'.1 h with ⟨j, hj, rfl⟩
      obtain ⟨heq, hnm⟩ := ih j hj
      have hca : c ≠ a := by
        intro hh
        exact hpre (by simp [List.isPrefixOf, hh])
      constructor
      · calc a :: rest = a :: (rest.take j ++ c :: rest.drop (j + 1)) := by rw [← heq]
          _ = (a :: rest).take (j + 1) ++ c :: (a :: rest).drop (j + 1 + 1) := by simp
      · simp [hca, hnm]

/-- The two shapes of `SplitN(s, ":", 2)`. -/
theorem goSplitN2_shape (c : Char) (s : Str) :
    (∀ n, goSplitN2 [c] s = [n] → n = s ∧ c ∉ s) ∧
    (∀ n v, goSplitN2 [c] s = [n, v] → s = n ++ c :: v ∧ c ∉ n) := by
  constructor
  · intro n h
    unfold goSplitN2 at h
    rcases hf : findSub [c] s with _ | i
    · rw [hf] at h
      cases h
      exact ⟨rfl, (findSub_single_none_iff c s).1 hf⟩
    · rw [hf] at h
      cases h
  · intro n v h
    unfold goSplitN2 at h
    rcases hf : findSub [c] s with _ | i
    · rw [hf] at h
      cases h
    · rw [hf] at h
      obtain ⟨heq, hnm⟩ := findSub_single_some c s i hf
      cases h
      exact ⟨by simpa using heq, hnm⟩

/-! Lemmas about `trimSpace`. -/

theorem dropWhile_head_false (p : Char → Bool) :
    ∀ (l : Str) (c : Char) (rest : Str), l.dropWhile p = c :: rest → p c = false := by
  intro l
  induction l with
  | nil => intro c rest h; simp at h
  | cons a l' ih =>
    intro c rest h
    rw [List.dropWhile_cons] at h
    by_cases hp : p a
    · rw [if_pos hp] at h
      exact ih c rest h
    · rw [if_neg hp] at h
      cases h
      simpa using hp

theorem dropWhile_eq_self_of_head (p : Char → Bool) (l : Str)
    (h : ∀ c, l.head? = some c → p c = false) : l.dropWhile p = l := by
  cases l with
  | nil => rfl
  | cons a l' => simp [List.dropWhile_cons, h a rfl]

theorem trimSpace_eq_self (s : Str) (hh : ∀ c, s.head? = some c → goIsSpace c = false)
    (hl : ∀ c, s.getLast? = some c → goIsSpace c = false) : trimSpace s = s := by
  unfold trimSpace
  rw [dropWhile_eq_self_of_head _ s hh]
  rw [dropWhile_eq_self_of_head _ s.reverse (by
    intro c hc
    exact hl c (by rwa [List.head?_reverse] at hc))]
  exact List.reverse_reverse s

theorem trimSpace_cons_space (s : Str) : trimSpace (' ' :: s) = trimSpace s := by
  unfold trimSpace
  rw [List.dropWhile_cons, if_pos (by simp [goIsSpace])]

theorem mem_of_mem_trimSpace (a : Char) (s : Str) (h : a ∈ trimSpace s) : a ∈ s := by
  unfold trimSpace at h
  have h1 := (List.dropWhile_sublist (l := ((s.dropWhile goIsSpace).reverse))
    (p := goIsSpace)).mem (List.mem_reverse.1 h)
  have h2 := (List.dropWhile_sublist (l := s) (p := goIsSpace)).mem
    (List.mem_reverse.1 h1)
  exact h2

theorem trimSpace_head_false (s : Str) (c : Char) (rest : Str)
    (h : trimSpace s = c :: rest) : goIsSpace c = false := by
  unfold trimSpace at h
  have hu' : ((s.dropWhile goIsSpace).reverse.dropWhile goIsSpace).getLast? = some c := by
    rw [← List.head?_reverse, h]
    rfl
  obtain ⟨pre, hpre⟩ :=
    List.dropWhile_suffix (l := (s.dropWhile goIsSpace).reverse) (p := goIsSpace)
  have hlast : (s.dropWhile goIsSpace).reverse.getLast? = some c := by
    rw [← hpre, List.getLast?_append, hu']
    rfl
  have hhead : (s.dropWhile goIsSpace).head? = some c := by
    rwa [List.getLast?_reverse] at hlast
  rcases ht' : s.dropWhile goIsSpace with _ | ⟨a, t'⟩
  · rw [ht'] at hhead
    simp at hhead
  · rw [ht'] at hhead
    simp at hhead
    exact hhead ▸ dropWhile_head_false goIsSpace s a t' ht'

theorem trimSpace_getLast_false (s : Str) (c : Char)
    (h : (trimSpace s).getLast? = some c) : goIsSpace c = false := by
  unfold trimSpace at h
  rw [List.getLast?_reverse] at h
  rcases hd : (s.dropWhile goIsSpace).reverse.dropWhile goIsSpace with _ | ⟨a, rest⟩
  · rw [hd] at h
    simp at h
  · rw [hd] at h
    simp at h
    exact h ▸ dropWhile_head_false goIsSpace _ a rest hd

theorem trimSpace_idem (s : Str) : trimSpace (trimSpace s) = trimSpace s := by
  rcases ht : trimSpace s with _ | ⟨c, rest⟩
  · rfl
  · refine trimSpace_eq_self _ ?_ ?_
    · intro d hd
      simp at hd
      exact hd ▸ trimSpace_head_false s c rest ht
    · intro d hd
      exact trimSpace_getLast_false s d (ht ▸ hd)

/-! Lemmas about `goReplace`. -/

theorem goReplace_append (a b : Str) : goReplace (a ++ b) = goReplace a ++ goReplace b := by
  induction a with
  | nil => rfl
  | cons c rest ih => simp [goReplace, ih]

theorem goReplace_eq_self (s : Str) (h : ∀ a ∈ s, a ≠ '+' ∧ a ≠ '-') :
    goReplace s = s := by
  induction s with
  | nil => rfl
  | cons c rest ih =>
    obtain ⟨h1, h2⟩ := h c (by simp)
    simp [goReplace, h1, h2, ih (fun a ha => h a (List.mem_cons_of_mem c ha))]

/-! ### Lemmas about `parseTag` -/

/-- If any comma segment splits into a name and an empty value, the
tag loop fails (either at that segment or at an earlier bad one). -/
theorem parseTagLoop_error_of_mem :
    ∀ (parts : List Str) (i : Nat) (o : fieldOptions) (part nm : Str),
      part ∈ parts → goSplitN2 [':'] part = [nm, []] →
      ∃ e, parseTagLoop i o parts = .error e := by
  intro parts
  induction parts with
  | nil =>
    intro i o part nm hmem _
    simp at hmem
  | cons p rest ih =>
    intro i o part nm hmem hsplit
    rw [List.mem_cons] at hmem
    rcases hmem with rfl | hmem
    · refine ⟨"tag ".toList ++ goQuote (trimSpace nm) ++ " missing a value".toList, ?_⟩
      simp only [parseTagLoop, hsplit]
      rfl
    · rcases h2 : goSplitN2 [':'] p with _ | ⟨q, _ | ⟨v, _ | _⟩⟩
      · simpa only [parseTagLoop, h2] using ih (i + 1) o part nm hmem hsplit
      · simpa only [parseTagLoop, h2] using ih (i + 1) _ part nm hmem hsplit
      · by_cases htv : trimSpace v = []
        · refine ⟨"tag ".toList ++ goQuote (trimSpace q) ++ " missing a value".toList, ?_⟩
          simp [parseTagLoop, h2, htv]
        · simp only [parseTagLoop, h2, if_neg htv]
          exact ih (i + 1) _ part nm hmem hsplit
      · simpa only [parseTagLoop, h2] using ih (i + 1) o part nm hmem hsplit

/-- **C8**: a `name:` directive segment whose value is empty after the
colon makes `parseTag` fail with a format error, for every segment
name (recognised or not); the empty directive string yields default
`fieldOptions` without error. -/
theorem parseTag_empty_value_fails :
    parseTag [] = .ok ({} : fieldOptions) ∧
    ∀ (tagStr part nm : Str), part ∈ goSplit [','] tagStr →
      goSplitN2 [':'] part = [nm, []] →
      ∃ e, parseTag tagStr = .error e := by
  constructor
  · rfl
  · intro tagStr part nm hmem hsplit
    have htne : tagStr ≠ [] := by
      rintro rfl
      rw [show goSplit [','] ([] : Str) = [[]] from rfl] at hmem
      simp at hmem
      rw [hmem] at hsplit
      simp [goSplitN2, findSub] at hsplit
    rw [parseTag, if_neg htne]
    exact parseTagLoop_error_of_mem _ 0 {} part nm hmem hsplit

/-- Witness for C8: the directive `x,default:` (recognised name) and
`x,frobnicate:` (unrecognised name) both fail. -/
theorem parseTag_empty_value_fails_witness :
    ("default:".toList ∈ goSplit [','] "x,default:".toList ∧
      goSplitN2 [':'] "default:".toList = ["default".toList, []] ∧
      ∃ e, parseTag "x,default:".toList = .error e) ∧
    ∃ e, parseTag "x,frobnicate:".toList = .error e :=
  ⟨⟨by decide, by decide,
    parseTag_empty_value_fails.2 "x,default:".toList "default:".toList "default".toList
      (by decide) (by decide)⟩,
   parseTag_empty_value_fails.2 "x,frobnicate:".toList "frobnicate:".toList
     "frobnicate".toList (by decide) (by decide)⟩

/-! ### C10: whitespace trimming inside directives -/

/-- A directive segment with its option name and (when present) option
value whitespace-trimmed. -/
def trimSeg (part : Str) : Str :=
  match goSplitN2 [':'] part with
  | [n] => trimSpace n
  | [n, v] => trimSpace n ++ ':' :: trimSpace v
  | _ => part

/-- A directive string with every segment's name and value trimmed. -/
def trimTagSegments (tagStr : Str) : Str :=
  goJoin [','] ((goSplit [','] tagStr).map trimSeg)

/-- `goSplitN2` always produces one or two parts. -/
theorem goSplitN2_cases (c : Char) (s : Str) :
    goSplitN2 [c] s = [s] ∨ ∃ n v, goSplitN2 [c] s = [n, v] := by
  unfold goSplitN2
  rcases findSub [c] s with _ | i
  · exact .inl rfl
  · exact .inr ⟨_, _, rfl⟩

/-- Characters of a trimmed segment come from the segment or are the
colon reinserted between name and value. -/
theorem mem_trimSeg (a : Char) (p : Str) (h : a ∈ trimSeg p) : a ∈ p ∨ a = ':' := by
  unfold trimSeg at h
  rcases h2 : goSplitN2 [':'] p with _ | ⟨q, _ | ⟨v, _ | _⟩⟩
  · rw [h2] at h
    exact .inl h
  · rw [h2] at h
    obtain ⟨hqp, _⟩ := (goSplitN2_shape ':' p).1 q h2
    exact .inl (hqp ▸ mem_of_mem_trimSpace a q h)
  · rw [h2] at h
    obtain ⟨heq, _⟩ := (goSplitN2_shape ':' p).2 q v h2
    rw [List.mem_append, List.mem_cons] at h
    rcases h with h | h | h
    · exact .inl (heq ▸ List.mem_append_left _ (mem_of_mem_trimSpace a q h))
    · exact .inr h
    · exact .inl (heq ▸ List.mem_append_right _
        (List.mem_cons_of_mem ':' (mem_of_mem_trimSpace a v h)))
  · rw [h2] at h
    exact .inl h

/-- The tag loop cannot tell a segment from its trimmed form. -/
theorem parseTagLoop_trimSeg :
    ∀ (parts : List Str) (i : Nat) (o : fieldOptions),
      parseTagLoop i o (parts.map trimSeg) = parseTagLoop i o parts := by
  intro parts
  induction parts with
  | nil => intro i o; rfl
  | cons p rest ih =>
    intro i o
    rcases goSplitN2_cases ':' p with h2 | ⟨q, v, h2⟩
    · -- colon-free segment
      have hq : ':' ∉ p := ((goSplitN2_shape ':' p).1 p h2).2
      have htr : trimSeg p = trimSpace p := by
        unfold trimSeg
        rw [h2]
      have h3 : goSplitN2 [':'] (trimSpace p) = [trimSpace p] :=
        goSplitN2_no ':' _ (fun hm => hq (mem_of_mem_trimSpace ':' p hm))
      simp only [List.map_cons, htr, parseTagLoop, h2, h3, trimSpace_idem, ih]
    · -- name:value segment
      obtain ⟨heq, hq⟩ := (goSplitN2_shape ':' p).2 q v h2
      have htr : trimSeg p = trimSpace q ++ ':' :: trimSpace v := by
        unfold trimSeg
        rw [h2]
      have h3 : goSplitN2 [':'] (trimSpace q ++ ':' :: trimSpace v) =
          [trimSpace q, trimSpace v] :=
        goSplitN2_cons ':' _ _ (fun hm => hq (mem_of_mem_trimSpace ':' q hm))
      simp only [List.map_cons, htr, parseTagLoop, h2, h3, trimSpace_idem, ih]

/-- `goJoin` over a single-character separator is empty only for the
empty part list or the single empty part. -/
theorem goJoin_single_eq_nil (c : Char) (l : List Str) (h : goJoin [c] l = []) :
    l = [] ∨ l = [[]] := by
  match l with
  | [] => exact .inl rfl
  | [x] => exact .inr (by rw [show goJoin [c] [x] = x from rfl] at h; rw [h])
  | x :: y :: rest =>
    exfalso
    have : goJoin [c] (x :: y :: rest) = x ++ [c] ++ goJoin [c] (y :: rest) := by
      simp [goJoin]
    rw [this] at h
    simp at h

/-- **C10**: `parseTag` trims leading and trailing whitespace from
each segment's option name and from each option value before
interpreting them; in particular `" myKey , default: 42"` resolves to
key `myKey` with default value `42`. -/
theorem parseTag_trims_segments :
    (∀ s : Str, parseTag s = parseTag (trimTagSegments s)) ∧
    parseTag " myKey , default: 42".toList =
      .ok { key := "myKey".toList, defaultValue := "42".toList } := by
  constructor
  · intro s
    by_cases hs : s = []
    · subst hs
      rfl
    · have hnm : ∀ p ∈ (goSplit [','] s).map trimSeg, ',' ∉ p := by
        intro p hp hcm
        rw [List.mem_map] at hp
        obtain ⟨p0, hp0, rfl⟩ := hp
        rcases mem_trimSeg ',' p0 hcm with hm | hm
        · exact not_mem_of_mem_goSplit ',' s.length s le_rfl p0 hp0 hm
        · cases hm
      by_cases hj : trimTagSegments s = []
      · -- the fully trimmed directive is empty: a single all-whitespace
        -- colon-free segment, which only sets the key to the empty string
        rw [hj]
        unfold trimTagSegments at hj
        rcases goJoin_single_eq_nil ',' _ hj with hmap | hmap
        · exact absurd (List.map_eq_nil_iff.1 hmap) (goSplit_single_ne_nil ',' s)
        · obtain ⟨p, hp, hrest⟩ : ∃ p, goSplit [','] s = [p] ∧ trimSeg p = [] := by
            rcases hsp : goSplit [','] s with _ | ⟨p, ps⟩
            · exact absurd hsp (goSplit_single_ne_nil ',' s)
            · rw [hsp] at hmap
              simp at hmap
              exact ⟨p, by rw [hmap.2], hmap.1⟩
          rcases goSplitN2_cases ':' p with h2 | ⟨q, v, h2⟩
          · have htrim : trimSpace p = [] := by
              unfold trimSeg at hrest
              rwa [h2] at hrest
            rw [parseTag, if_neg hs, hp]
            simp [parseTagLoop, h2, htrim]
            rfl
          · exfalso
            unfold trimSeg at hrest
            rw [h2] at hrest
            simp at hrest
      · rw [parseTag, if_neg hs, parseTag, if_neg hj]
        unfold trimTagSegments
        rw [goSplit_goJoin ',' _ (by simpa using goSplit_single_ne_nil ',' s) hnm]
        exact (parseTagLoop_trimSeg _ 0 {}).symm ▸ parseTagLoop_trimSeg _ 0 {}
  · rfl

/-! ### C5: slice coercion -/

theorem ParseOptions.Delim_ne_nil (o : ParseOptions) : o.Delim ≠ [] := by
  unfold ParseOptions.Delim
  rcases o.delim with _ | d
  · simp
  · by_cases hd : d = [] <;> simp [hd]

/-- Go `strings.Split("", sep)` (nonempty `sep`) is the one-element
list holding the empty string; in particular for every delimiter. -/
theorem goSplit_delim_nil (o : ParseOptions) : goSplit o.Delim [] = [[]] := by
  unfold goSplit
  rw [if_neg (ParseOptions.Delim_ne_nil o)]
  unfold goSplitFuel
  rw [show findSub o.Delim [] = none by
    unfold findSub
    rw [if_neg (ParseOptions.Delim_ne_nil o)]]

/-- Successful element loops coerce the parts pointwise, in order. -/
theorem processElems_forall₂ :
    ∀ (elemTy : Ty) (parts : List Str) (fOpts : fieldOptions) (pOpts : ParseOptions)
      (now : GoDate) (vs : List Value),
      processElems elemTy parts fOpts pOpts now = .ok vs →
      List.Forall₂ (fun p w =>
        processField false p elemTy (zeroValue elemTy) fOpts pOpts now = .ok w) parts vs := by
  intro elemTy parts
  induction parts with
  | nil =>
    intro fOpts pOpts now vs h
    simp only [processElems] at h
    cases h
    exact .nil
  | cons p rest ih =>
    intro fOpts pOpts now vs h
    simp only [processElems] at h
    rcases hp : processField false p elemTy (zeroValue elemTy) fOpts pOpts now with e | v
    · rw [hp] at h
      cases h
    · rw [hp] at h
      rcases hr : processElems elemTy rest fOpts pOpts now with e | ws
      · rw [hr] at h
        cases h
      · rw [hr] at h
        cases h
        exact .cons hp (ih fOpts pOpts now ws hr)

/-- **C5**: a slice field splits its input on the configured delimiter
and coerces the parts in order into exactly as many elements; the
entirely empty string still yields a one-element sequence holding the
empty string, unlike the map case, which yields an empty mapping for
empty or whitespace-only input. -/
theorem processField_slice_split :
    (∀ (elemTy : Ty) (v : Str) (cur : Value) (fOpts : fieldOptions)
        (pOpts : ParseOptions) (now : GoDate) (l : List Value),
      processField false v (.slice elemTy) cur fOpts pOpts now = .ok (.slice (some l)) →
      List.Forall₂ (fun p w =>
        processField false p elemTy (zeroValue elemTy) fOpts pOpts now = .ok w)
        (goSplit pOpts.Delim v) l ∧
      l.length = (goSplit pOpts.Delim v).length) ∧
    (∀ pOpts : ParseOptions, goSplit pOpts.Delim [] = [[]]) ∧
    (∀ (cur : Value) (fOpts : fieldOptions) (pOpts : ParseOptions) (now : GoDate),
      processField false [] (.slice .str) cur fOpts pOpts now =
        .ok (.slice (some [.str []]))) ∧
    (∀ (kTy vTy : Ty) (cur : Value) (fOpts : fieldOptions) (pOpts : ParseOptions)
        (now : GoDate) (ws : Str), trimSpace ws = [] →
      processField false ws (.mp kTy vTy) cur fOpts pOpts now = .ok (.mp (some []))) := by
  refine ⟨?_, goSplit_delim_nil, ?_, ?_⟩
  · intro elemTy v cur fOpts pOpts now l h
    simp only [processField, coerceKind] at h
    simp at h
    rcases he : processElems elemTy (goSplit pOpts.Delim v) fOpts pOpts now with e | vs
    · rw [he] at h
      cases h
    · rw [he] at h
      cases h
      exact ⟨processElems_forall₂ elemTy _ fOpts pOpts now l he,
        (List.Forall₂.length_eq (processElems_forall₂ elemTy _ fOpts pOpts now l he)).symm⟩
  · intro cur fOpts pOpts now
    simp only [processField, coerceKind, goSplit_delim_nil, processElems, zeroValue]
    simp
  · intro kTy vTy cur fOpts pOpts now ws hws
    simp only [processField, coerceKind, hws]
    simp

/-- Witness for C5: `"a;b"` with the default delimiter gives the
two-element sequence, and whitespace-only map input gives the empty
mapping. -/
theorem processField_slice_split_witness :
    List.Forall₂ (fun p w =>
        processField false p .str (zeroValue .str) {} {} ⟨2026, 1, 1⟩ = .ok w)
      (goSplit (ParseOptions.Delim {}) "a;b".toList) [.str ['a'], .str ['b']] ∧
    processField false " ".toList (.mp .str .str) (.mp none) {} {} ⟨2026, 1, 1⟩ =
      .ok (.mp (some [])) := by
  constructor
  · refine (processField_slice_split.1 .str "a;b".toList (.slice none) {} {}
      ⟨2026, 1, 1⟩ [.str ['a'], .str ['b']] ?_).1
    have h : goSplit (ParseOptions.Delim {}) "a;b".toList = [['a'], ['b']] := rfl
    simp only [processField, coerceKind, processElems, h, zeroValue]
    simp
  · exact processField_slice_split.2.2.2 .str .str (.mp none) {} {} ⟨2026, 1, 1⟩
      " ".toList (by decide)

/-! ### C7: joining repeated values and the delimiter default -/

/-- **C7**: when a field's lookup key has more than one value in the
multimap, `Unmarshal` coerces all the values joined with the
configured delimiter (the sole value when exactly one is present), and
the delimiter is `;` when unset or set to the empty string. -/
theorem unmarshal_join_delimiter :
    (∀ (pOpts : ParseOptions) (v : Str) (vs : List Str), vs ≠ [] →
      joinedValue pOpts (v :: vs) = goJoin pOpts.Delim (v :: vs)) ∧
    (∀ (pOpts : ParseOptions) (v : Str), joinedValue pOpts [v] = v) ∧
    ParseOptions.Delim ⟨none⟩ = [';'] ∧
    ParseOptions.Delim ⟨some []⟩ = [';'] ∧
    (∀ (data : Multimap) (pOpts : ParseOptions) (now : GoDate) (f : field)
        (values : List Str) (v2 : Value),
      f.options.defaultValue = [] →
      data.lookup (if f.options.key = [] then f.name else f.options.key) = some values →
      values ≠ [] →
      processField false (joinedValue pOpts values) f.fieldTy f.fieldVal f.options
        pOpts now = .ok v2 →
      processOneField data pOpts now f = .ok { f with fieldVal := v2 }) := by
  refine ⟨?_, ?_, rfl, rfl, ?_⟩
  · intro pOpts v vs hvs
    simp [joinedValue, hvs]
  · intro pOpts v
    simp [joinedValue]
  · intro data pOpts now f values v2 hd hlk hne hok
    simp only [processOneField, hd, hlk]
    simp [hne, hok]

/-- Witness for C7: key `k` mapped to `["a", "b"]` is coerced as the
joined string `a;b` under the default delimiter. -/
theorem unmarshal_join_delimiter_witness :
    joinedValue {} ["a".toList, "b".toList] =
      goJoin (ParseOptions.Delim {}) ["a".toList, "b".toList] ∧
    processOneField [("k".toList, ["a".toList, "b".toList])] {} ⟨2026, 1, 1⟩
      { name := "F".toList, fieldTy := .str, fieldVal := .str [],
        options := { key := "k".toList } } =
      .ok { name := "F".toList, fieldTy := .str,
            fieldVal := Value.str ("a;b".toList),
            options := { key := "k".toList } } := by
  constructor
  · exact unmarshal_join_delimiter.1 {} "a".toList ["b".toList] (by decide)
  · refine unmarshal_join_delimiter.2.2.2.2
      [("k".toList, ["a".toList, "b".toList])] {} ⟨2026, 1, 1⟩
      { name := "F".toList, fieldTy := .str, fieldVal := .str [],
        options := { key := "k".toList } }
      ["a".toList, "b".toList] (.str "a;b".toList) rfl (by decide) (by decide) ?_
    simp only [processField, coerceKind]
    simp
    rfl

/-! ### C2: the default-value zero-check -/

/-- The value the `settingDefault && !field.IsZero()` check inspects:
the pointee (after the single dereference) for pointer fields, the
field itself otherwise. -/
def zeroCheckTarget (ty : Ty) (cur : Value) : Value :=
  match ty with
  | .ptr inner => derefPointee inner cur
  | _ => cur

/-- Whether `processField`'s dispatch reaches the zero-check for this
type: `time.Time` and custom-decode types (also one pointer level
above them, which Go routes to the addressable unmarshaler) return
before the check. -/
def zeroCheckGoverned : Ty → Bool
  | .time => false
  | .custom => false
  | .ptr .time => false
  | .ptr .custom => false
  | _ => true

/-- **C2 (counterexample)**: default-value application overwrites a
`time.Time` field even when it already holds a non-zero value — the
dispatch handles timestamps before the zero-check. -/
theorem processField_default_overwrites_time :
    isZero (Value.time ⟨2020, 5, 5⟩) = false ∧
    processField true "now".toList .time (.time ⟨2020, 5, 5⟩) {} {} ⟨2021, 1, 1⟩ =
      .ok (.time ⟨2021, 1, 1⟩) ∧
    processField true "now".toList .time (.time ⟨2020, 5, 5⟩) {} {} ⟨2021, 1, 1⟩ ≠
      .ok (.time ⟨2020, 5, 5⟩) := by
  refine ⟨by simp [isZero]; decide, ?_, ?_⟩
  · simp only [processField]
    rfl
  · simp only [processField]
    intro h
    rw [show parseTime ({} : fieldOptions).layout "now".toList ⟨2021, 1, 1⟩ =
      .ok ⟨2021, 1, 1⟩ from rfl] at h
    simp at h

/-- **C2 (amended)**: for every field whose type reaches the
zero-check (neither `time.Time` nor custom-decode capable, directly or
one pointer level up), if the (pointer-dereferenced) target already
holds a non-zero value, applying a default leaves the field
unchanged. -/
theorem processField_default_skips_nonzero
    (ty : Ty) (v : Str) (cur : Value) (fOpts : fieldOptions) (pOpts : ParseOptions)
    (now : GoDate) (hg : zeroCheckGoverned ty = true)
    (hz : isZero (zeroCheckTarget ty cur) = false) :
    processField true v ty cur fOpts pOpts now = .ok cur := by
  cases ty with
  | time => simp [zeroCheckGoverned] at hg
  | custom => simp [zeroCheckGoverned] at hg
  | ptr inner =>
    have hz' : isZero (derefPointee inner cur) = false := hz
    simp only [processField]
    simp [hz']
  | str => simp only [processField]; simp [show isZero cur = false from hz]
  | int bits => simp only [processField]; simp [show isZero cur = false from hz]
  | uint bits => simp only [processField]; simp [show isZero cur = false from hz]
  | bool => simp only [processField]; simp [show isZero cur = false from hz]
  | slice elem => simp only [processField]; simp [show isZero cur = false from hz]
  | mp k w => simp only [processField]; simp [show isZero cur = false from hz]
  | strct fs => simp only [processField]; simp [show isZero cur = false from hz]
  | other => simp only [processField]; simp [show isZero cur = false from hz]

/-- Witness for the amended C2: a non-zero `int64` field survives
default application, as does a pointer to a non-zero `int64`. -/
theorem processField_default_skips_nonzero_witness :
    processField true "99".toList (.int 64) (.int 7) {} {} ⟨2026, 1, 1⟩ =
      .ok (.int 7) ∧
    processField true "99".toList (.ptr (.int 64)) (.ptr (.int 7)) {} {} ⟨2026, 1, 1⟩ =
      .ok (.ptr (.int 7)) := by
  constructor
  · exact processField_default_skips_nonzero (.int 64) "99".toList (.int 7) {} {}
      ⟨2026, 1, 1⟩ (by decide) (by simp [zeroCheckTarget, isZero])
  · exact processField_default_skips_nonzero (.ptr (.int 64)) "99".toList (.ptr (.int 7))
      {} {} ⟨2026, 1, 1⟩ (by decide) (by simp [zeroCheckTarget, derefPointee, isZero])

/-! ### C9: absent key and no default leave a nil pointer nil -/

/-- **C9**: a field of pointer type with a non-struct pointee is left
as a nil pointer by flattening (no allocation), and when its key is
absent from the multimap and it has no default, `Unmarshal` leaves the
field untouched — pointee storage is allocated only when a value is
actually coerced into the field. -/
theorem unmarshal_keeps_nil_pointer :
    (∀ t : Ty, tyKindStruct t = false → drill (.ptr t) .nil = (.ptr t, .nil)) ∧
    (∀ (data : Multimap) (pOpts : ParseOptions) (now : GoDate) (f : field),
      f.options.defaultValue = [] →
      data.lookup (if f.options.key = [] then f.name else f.options.key) = none →
      processOneField data pOpts now f = .ok f) ∧
    (∀ (data : Multimap) (pOpts : ParseOptions) (now : GoDate) (name : Str) (t : Ty),
      tyKindStruct t = false →
      data.lookup name = none →
      Unmarshal data (.ptr (.strct [(true, name, [], .ptr t)])) (.ptr (.strct [.nil]))
        pOpts now =
        .ok [{ name := name, fieldTy := .ptr t, fieldVal := .nil, options := {} }]) := by
  refine ⟨?_, ?_, ?_⟩
  · intro t ht
    simp [drill, ht]
  · intro data pOpts now f hd hlk
    simp only [processOneField, hd, hlk]
    simp
  · intro data pOpts now name t ht hlk
    have hdrill : drill (.ptr t) (([Value.nil].headD (zeroValue (.ptr t)))) =
        (.ptr t, .nil) := by
      simp [drill, ht]
    have hext : extractFields (.ptr (.strct [(true, name, [], .ptr t)]))
        (.ptr (.strct [.nil])) =
        .ok [{ name := name, fieldTy := .ptr t, fieldVal := .nil, options := {} }] := by
      simp only [extractFields, extractLoop, hdrill]
      cases t <;> simp_all [parseTag, drill, tyKindStruct]
    simp only [Unmarshal, hext]
    simp only [List.length_cons, List.length_nil]
    rw [if_neg (by omega)]
    simp only [processFields]
    rw [show processOneField data pOpts now
        { name := name, fieldTy := .ptr t, fieldVal := .nil, options := {} } =
      .ok { name := name, fieldTy := .ptr t, fieldVal := .nil, options := {} } from by
        simp only [processOneField]
        simp [hlk]]

/-! ### C6: structural target errors -/

/-- Whether the target is a pointer whose pointee has struct kind —
the shape `extractFields` requires. -/
def structPtrTarget : Ty → Bool
  | .ptr inner => tyKindStruct inner
  | _ => false

/-- A target that is not a struct pointer always fails extraction with
`ErrInvalidStruct`. -/
theorem extractFields_invalid (t : Ty) (v : Value) (h : structPtrTarget t = false) :
    extractFields t v = .error .invalidStruct := by
  cases t with
  | ptr inner =>
    cases inner <;>
      solve
        | (cases v <;> simp [extractFields])
        | exact absurd h (by simp [structPtrTarget, tyKindStruct])
  | str => cases v <;> simp [extractFields]
  | int bits => cases v <;> simp [extractFields]
  | uint bits => cases v <;> simp [extractFields]
  | bool => cases v <;> simp [extractFields]
  | time => cases v <;> simp [extractFields]
  | custom => cases v <;> simp [extractFields]
  | slice elem => cases v <;> simp [extractFields]
  | mp k w => cases v <;> simp [extractFields]
  | strct fs => cases v <;> simp [extractFields]
  | other => cases v <;> simp [extractFields]

/-- **C6**: `Unmarshal` fails with `ErrInvalidStruct` whenever the
destination is not a pointer to a struct, regardless of input content;
a valid struct pointer whose flattening yields zero eligible fields
fails with the distinct "no fields" error. -/
theorem unmarshal_structural_errors :
    (∀ (data : Multimap) (targetTy : Ty) (targetVal : Value) (pOpts : ParseOptions)
        (now : GoDate),
      structPtrTarget targetTy = false →
      Unmarshal data targetTy targetVal pOpts now = .error .invalidStruct) ∧
    (∀ (data : Multimap) (targetTy : Ty) (targetVal : Value) (pOpts : ParseOptions)
        (now : GoDate),
      extractFields targetTy targetVal = .ok [] →
      Unmarshal data targetTy targetVal pOpts now = .error .noFields) ∧
    UErr.noFields ≠ UErr.invalidStruct := by
  refine ⟨?_, ?_, by simp⟩
  · intro data targetTy targetVal pOpts now h
    simp only [Unmarshal, extractFields_invalid targetTy targetVal h]
  · intro data targetTy targetVal pOpts now h
    simp only [Unmarshal, h]
    simp

/-- Witness for C6: an `int` target and a struct pointer whose only
field is unexported. -/
theorem unmarshal_structural_errors_witness :
    Unmarshal [("k".toList, ["v".toList])] (.int 64) (.int 0) {} ⟨2026, 1, 1⟩ =
      .error .invalidStruct ∧
    Unmarshal [("k".toList, ["v".toList])]
      (.ptr (.strct [(false, "a".toList, [], .str)])) (.ptr (.strct [.str []]))
      {} ⟨2026, 1, 1⟩ = .error .noFields := by
  constructor
  · exact unmarshal_structural_errors.1 [("k".toList, ["v".toList])] (.int 64) (.int 0)
      {} ⟨2026, 1, 1⟩ (by decide)
  · refine unmarshal_structural_errors.2.1 [("k".toList, ["v".toList])]
      (.ptr (.strct [(false, "a".toList, [], .str)])) (.ptr (.strct [.str []]))
      {} ⟨2026, 1, 1⟩ ?_
    simp [extractFields, extractLoop]

/-- Witness for C9: a `*string` field keyed by its name, with no
default and no matching key, stays nil through `Unmarshal`. -/
theorem unmarshal_keeps_nil_pointer_witness :
    Unmarshal [("other".toList, ["x".toList])]
      (.ptr (.strct [(true, "P".toList, [], .ptr .str)])) (.ptr (.strct [.nil]))
      {} ⟨2026, 1, 1⟩ =
      .ok [{ name := "P".toList, fieldTy := .ptr .str, fieldVal := .nil,
             options := {} }] :=
  unmarshal_keeps_nil_pointer.2.2 [("other".toList, ["x".toList])] {} ⟨2026, 1, 1⟩
    "P".toList .str (by decide) (by decide)

/-! ### C1: the two error tiers of `Unmarshal` -/

/-- `processFields` over an appended field list processes the prefix
first and propagates the first failure. -/
theorem processFields_append (data : Multimap) (pOpts : ParseOptions) (now : GoDate)
    (l1 l2 : List field) :
    processFields data pOpts now (l1 ++ l2) =
      match processFields data pOpts now l1 with
      | .error e => .error e
      | .ok r1 =>
        match processFields data pOpts now l2 with
        | .error e => .error e
        | .ok r2 => .ok (r1 ++ r2) := by
  induction l1 with
  | nil =>
    rcases h2 : processFields data pOpts now l2 with e | r2 <;>
      simp [processFields, h2]
  | cons f rest ih =>
    rcases h1 : processOneField data pOpts now f with e | f'
    · simp [processFields, h1]
    · rcases hr : processFields data pOpts now rest with e | r1
      · simp [processFields, h1, ih, hr]
      · rcases h2 : processFields data pOpts now l2 with e | r2 <;>
          simp [processFields, h1, ih, hr, h2]

/-- A default-value coercion failure surfaces from the loop body as a
bare `FieldError`. -/
theorem processOneField_default_error (data : Multimap) (pOpts : ParseOptions)
    (now : GoDate) (f : field) (err : Str)
    (hd : f.options.defaultValue ≠ [])
    (herr : processField true f.options.defaultValue f.fieldTy f.fieldVal f.options
      pOpts now = .error err) :
    processOneField data pOpts now f =
      .error (.fieldErr ⟨f.name, f.fieldTy.typeString, f.options.defaultValue, err⟩) := by
  simp only [processOneField, if_pos hd, herr]

/-- A real-input coercion failure surfaces from the loop body as a
`ParseError` wrapping a `FieldError` and recording the key. -/
theorem processOneField_input_error (data : Multimap) (pOpts : ParseOptions)
    (now : GoDate) (f : field) (v1 : Value) (values : List Str) (err : Str)
    (hv1 : f.options.defaultValue = [] ∧ v1 = f.fieldVal ∨
      f.options.defaultValue ≠ [] ∧
        processField true f.options.defaultValue f.fieldTy f.fieldVal f.options pOpts now
          = .ok v1)
    (hlk : data.lookup (if f.options.key = [] then f.name else f.options.key)
      = some values)
    (hne : values ≠ [])
    (herr : processField false (joinedValue pOpts values) f.fieldTy v1 f.options pOpts now
      = .error err) :
    processOneField data pOpts now f =
      .error (.parseErr ⟨f.name, if f.options.key = [] then f.name else f.options.key,
        ⟨f.name, f.fieldTy.typeString, joinedValue pOpts values, err⟩⟩) := by
  rcases hv1 with ⟨hd, rfl⟩ | ⟨hd, hok⟩
  · simp only [processOneField, hd, hlk]
    simp [hne, herr]
  · simp only [processOneField, if_pos hd, hok, hlk]
    simp [hne, herr]

/-- **C1**: for every flattened field, a coercion failure while
applying the field's default makes `Unmarshal` return a bare
`FieldError` (never wrapped in a `ParseError`), whereas a coercion
failure on a real input value makes `Unmarshal` return a `ParseError`
wrapping a `FieldError` and recording the multimap key being read. -/
theorem unmarshal_error_tiers
    (data : Multimap) (targetTy : Ty) (targetVal : Value) (pOpts : ParseOptions)
    (now : GoDate) (pre post : List field) (f : field) (pre' : List field)
    (hext : extractFields targetTy targetVal = .ok (pre ++ f :: post))
    (hpre : processFields data pOpts now pre = .ok pre') :
    (∀ err : Str,
      f.options.defaultValue ≠ [] →
      processField true f.options.defaultValue f.fieldTy f.fieldVal f.options pOpts now
        = .error err →
      Unmarshal data targetTy targetVal pOpts now =
        .error (.fieldErr ⟨f.name, f.fieldTy.typeString, f.options.defaultValue, err⟩)) ∧
    (∀ (v1 : Value) (values : List Str) (err : Str),
      (f.options.defaultValue = [] ∧ v1 = f.fieldVal ∨
        f.options.defaultValue ≠ [] ∧
          processField true f.options.defaultValue f.fieldTy f.fieldVal f.options pOpts now
            = .ok v1) →
      data.lookup (if f.options.key = [] then f.name else f.options.key) = some values →
      values ≠ [] →
      processField false (joinedValue pOpts values) f.fieldTy v1 f.options pOpts now
        = .error err →
      Unmarshal data targetTy targetVal pOpts now =
        .error (.parseErr ⟨f.name, if f.options.key = [] then f.name else f.options.key,
          ⟨f.name, f.fieldTy.typeString, joinedValue pOpts values, err⟩⟩)) := by
  have hrun : ∀ e : UErr, processOneField data pOpts now f = .error e →
      Unmarshal data targetTy targetVal pOpts now = .error e := by
    intro e hf
    simp only [Unmarshal, hext]
    rw [if_neg (by simp)]
    rw [processFields_append, hpre]
    simp [processFields, hf]
  constructor
  · intro err hd herr
    exact hrun _ (processOneField_default_error data pOpts now f err hd herr)
  · intro v1 values err hv1 hlk hne herr
    exact hrun _ (processOneField_input_error data pOpts now f v1 values err hv1 hlk hne herr)

/-- Witness for C1: an `int` field with unparseable default `x` fails
with a bare `FieldError`; the same field with good default `7` but
unparseable input `y` under key `aInt` fails with a `ParseError`
recording that key. -/
theorem unmarshal_error_tiers_witness :
    Unmarshal [] (.ptr (.strct [(true, "A".toList, "aInt,default:x".toList, .int 64)]))
      (.ptr (.strct [.int 0])) {} ⟨2026, 1, 1⟩ =
      .error (.fieldErr ⟨"A".toList, "int64".toList, "x".toList,
        "invalid syntax".toList⟩) ∧
    Unmarshal [("aInt".toList, ["y".toList])]
      (.ptr (.strct [(true, "A".toList, "aInt,default:7".toList, .int 64)]))
      (.ptr (.strct [.int 0])) {} ⟨2026, 1, 1⟩ =
      .error (.parseErr ⟨"A".toList, "aInt".toList,
        ⟨"A".toList, "int64".toList, "y".toList, "invalid syntax".toList⟩⟩) := by
  constructor
  · have h := (unmarshal_error_tiers []
      (.ptr (.strct [(true, "A".toList, "aInt,default:x".toList, .int 64)]))
      (.ptr (.strct [.int 0])) {} ⟨2026, 1, 1⟩ [] []
      { name := "A".toList, fieldTy := .int 64, fieldVal := .int 0,
        options := { key := "aInt".toList, defaultValue := "x".toList } } []
      (by simp [extractFields, extractLoop, parseTag, drill]; rfl)
      (by simp [processFields])).1 "invalid syntax".toList (by simp)
      (by simp only [processField, coerceKind]; simp [isZero]; rfl)
    simpa using h
  · have h := (unmarshal_error_tiers [("aInt".toList, ["y".toList])]
      (.ptr (.strct [(true, "A".toList, "aInt,default:7".toList, .int 64)]))
      (.ptr (.strct [.int 0])) {} ⟨2026, 1, 1⟩ [] []
      { name := "A".toList, fieldTy := .int 64, fieldVal := .int 0,
        options := { key := "aInt".toList, defaultValue := "7".toList } } []
      (by simp [extractFields, extractLoop, parseTag, drill]; rfl)
      (by simp [processFields])).2 (.int 7) ["y".toList] "invalid syntax".toList
      (.inr ⟨by simp, by simp only [processField, coerceKind]; simp [isZero]; rfl⟩)
      (by decide) (by decide)
      (by simp only [processField, coerceKind]; simp; rfl)
    simpa using h

/-! ### C4: map pair splitting -/

/-- **C4 (counterexample)**: map pairs are split with `strings.Split`
on *every* colon, not on the first one: the pair `a:b:c` fails with
the malformed-pair error instead of succeeding with value `b:c`, and
the pair `a:` (empty value side) succeeds instead of failing. -/
theorem processField_map_split_counterexample :
    processField false "a:b:c".toList (.mp .str .str) (.mp none) {} {} ⟨2026, 1, 1⟩ =
      .error ("invalid map item: ".toList ++ goQuote "a:b:c".toList) ∧
    processField false "a:b:c".toList (.mp .str .str) (.mp none) {} {} ⟨2026, 1, 1⟩ ≠
      .ok (.mp (some [(Value.str ['a'], Value.str ("b:c".toList))])) ∧
    processField false "a:".toList (.mp .str .str) (.mp none) {} {} ⟨2026, 1, 1⟩ =
      .ok (.mp (some [(Value.str ['a'], Value.str [])])) := by
  have h1 : (trimSpace "a:b:c".toList).length ≠ 0 := by decide
  have h2 : goSplit (ParseOptions.Delim {}) "a:b:c".toList = ["a:b:c".toList] := rfl
  have h3 : goSplit [':'] "a:b:c".toList = [['a'], ['b'], ['c']] := rfl
  have hmain : processField false "a:b:c".toList (.mp .str .str) (.mp none) {} {}
      ⟨2026, 1, 1⟩ = .error ("invalid map item: ".toList ++ goQuote "a:b:c".toList) := by
    simp only [processField, coerceKind, processPairs, h2, h3, if_pos h1]
    rfl
  refine ⟨hmain, ?_, ?_⟩
  · rw [hmain]
    simp
  · have h4 : (trimSpace "a:".toList).length ≠ 0 := by decide
    have h5 : goSplit (ParseOptions.Delim {}) "a:".toList = ["a:".toList] := rfl
    have h6 : goSplit [':'] "a:".toList = [['a'], []] := rfl
    simp only [processField, coerceKind, processPairs, h5, h6, if_pos h4]
    simp [mapSet]

/-- **C4 (amended)**: a delimiter-free, non-whitespace pair string is
split on *every* colon; it coerces successfully (key and value sides
may be empty) exactly when it contains exactly one colon, and any
other colon count fails with the malformed-pair error citing the
pair. -/
theorem processField_map_pair_split
    (kTy vTy : Ty) (cur : Value) (fOpts : fieldOptions) (pOpts : ParseOptions)
    (now : GoDate) (p : Str)
    (hws : trimSpace p ≠ [])
    (hone : goSplit pOpts.Delim p = [p]) :
    (p.count ':' ≠ 1 →
      processField false p (.mp kTy vTy) cur fOpts pOpts now =
        .error ("invalid map item: ".toList ++ goQuote p)) ∧
    (∀ k v : Str, p = k ++ ':' :: v → ':' ∉ k → ':' ∉ v →
      processField false p (.mp kTy vTy) cur fOpts pOpts now =
        match processField false k kTy (zeroValue kTy) fOpts pOpts now with
        | .error e => .error e
        | .ok kVal =>
          match processField false v vTy (zeroValue vTy) fOpts pOpts now with
          | .error e => .error e
          | .ok vVal => .ok (.mp (some [(kVal, vVal)]))) := by
  have hlen : (trimSpace p).length ≠ 0 := by
    intro h
    exact hws (List.eq_nil_of_length_eq_zero h)
  constructor
  · intro hcnt
    simp only [processField, coerceKind, if_pos hlen, hone, processPairs]
    rcases Nat.lt_or_ge (p.count ':') 1 with hc | hc
    · -- zero colons: the split is the single part [p]
      have hc0 : p.count ':' = 0 := by omega
      rw [goSplit_single_no ':' p (List.count_eq_zero.1 hc0)]
      simp
    · -- at least two colons: the split has three or more parts
      have hc2 : 2 ≤ p.count ':' := by omega
      have hmem : ':' ∈ p := by
        by_contra hx
        rw [List.count_eq_zero.2 hx] at hc2
        omega
      obtain ⟨s1, s2, rfl, hnm⟩ := exists_first_split ':' p hmem
      rw [goSplit_single_cons ':' s1 s2 hnm]
      have hcs2 : 1 ≤ s2.count ':' := by
        have hcount : (s1 ++ ':' :: s2).count ':' = s2.count ':' + 1 := by
          rw [List.count_append, List.count_eq_zero.2 hnm]
          simp [List.count_cons]
        rw [hcount] at hc2
        omega
      have hlen2 : 2 ≤ (goSplit [':'] s2).length := by
        rw [goSplit_single_length ':' s2.length s2 le_rfl]
        omega
      rcases hsp : goSplit [':'] s2 with _ | ⟨x, _ | ⟨y, rest⟩⟩
      · rw [hsp] at hlen2
        simp at hlen2
      · rw [hsp] at hlen2
        simp at hlen2
      · simp
  · intro k v hp hk hv
    subst hp
    simp only [processField, coerceKind, if_pos hlen, hone, processPairs]
    rw [goSplit_single_cons ':' k v hk, goSplit_single_no ':' v hv]
    rcases hkr : processField false k kTy (zeroValue kTy) fOpts pOpts now with e | kVal
    · simp [hkr]
    · rcases hvr : processField false v vTy (zeroValue vTy) fOpts pOpts now with e | vVal
      · simp [hkr, hvr]
      · simp [hkr, hvr, processPairs, mapSet]

/-- Witness for the amended C4: the one-colon pair `x:y` coerces into
the singleton mapping, and the colon-free pair `ab` fails citing the
pair. -/
theorem processField_map_pair_split_witness :
    processField false "x:y".toList (.mp .str .str) (.mp none) {} {} ⟨2026, 1, 1⟩ =
      .ok (.mp (some [(Value.str ['x'], Value.str ['y'])])) ∧
    processField false "ab".toList (.mp .str .str) (.mp none) {} {} ⟨2026, 1, 1⟩ =
      .error ("invalid map item: ".toList ++ goQuote "ab".toList) := by
  constructor
  · have h := (processField_map_pair_split .str .str (.mp none) {} {} ⟨2026, 1, 1⟩
      "x:y".toList (by decide) rfl).2 ['x'] ['y'] rfl (by decide) (by decide)
    rw [h]
    simp only [processField, coerceKind]
    simp
  · exact (processField_map_pair_split .str .str (.mp none) {} {} ⟨2026, 1, 1⟩
      "ab".toList (by decide) rfl).1 (by decide)

/-! ### C3: "now"-relative time expressions -/

/-- One token `[+-]<digits><y|m|d>` of a valid "now"-relative
expression. -/
structure NowTok where
  plus : Bool
  digits : Str
  ident : Char
deriving DecidableEq, Repr

/-- The concrete text of a token. -/
def NowTok.render (t : NowTok) : Str :=
  (if t.plus then '+' else '-') :: (t.digits ++ [t.ident])

/-- The concrete text of a token sequence (tokens are written back to
back, with no separators, as the grammar allows). -/
def renderToks (ts : List NowTok) : Str := (ts.map NowTok.render).flatten

/-- Decimal value of a digit string, continuing from accumulator `n`
(the accumulation performed by `strconv`'s parse loop). -/
def digitsVal (n : Nat) (ds : Str) : Nat :=
  ds.foldl (fun a c => a * 10 + (c.toNat - 48)) n

/-- A well-formed token: a nonempty all-decimal digit string whose
value fits `strconv.Atoi`'s 64-bit signed range, and a `y`/`m`/`d`
identifier. -/
abbrev NowTok.Valid (t : NowTok) : Prop :=
  t.digits ≠ [] ∧ (∀ c ∈ t.digits, 48 ≤ c.toNat ∧ c.toNat ≤ 57) ∧
  digitsVal 0 t.digits < 2 ^ 63 ∧
  (t.ident = 'y' ∨ t.ident = 'm' ∨ t.ident = 'd')

/-- The signed value a token assigns to its identifier. -/
def NowTok.val (t : NowTok) : Int :=
  (if t.plus then 1 else -1) * (digitsVal 0 t.digits : Int)

/-- The delta a token sequence leaves for identifier `id`: the value
of the **last** token with that identifier (assignment, not
accumulation), zero when there is none. -/
def lastDelta (id : Char) (ts : List NowTok) : Int :=
  ts.foldl (fun acc t => if t.ident = id then t.val else acc) 0

theorem digitsVal_le (ds : Str) : ∀ n : Nat, n ≤ digitsVal n ds := by
  induction ds with
  | nil => intro n; simp [digitsVal]
  | cons c rest ih =>
    intro n
    have h2 := ih (n * 10 + (c.toNat - 48))
    have h1 : n ≤ n * 10 + (c.toNat - 48) := by omega
    calc n ≤ n * 10 + (c.toNat - 48) := h1
      _ ≤ digitsVal (n * 10 + (c.toNat - 48)) rest := h2
      _ = digitsVal n (c :: rest) := by simp [digitsVal]

/-- `strconv.ParseUint`'s digit loop on an in-range decimal digit
string computes its value. -/
theorem parseUintLoop_digits (maxVal : Nat) :
    ∀ (ds : Str) (n : Nat), (∀ c ∈ ds, 48 ≤ c.toNat ∧ c.toNat ≤ 57) →
      digitsVal n ds ≤ maxVal →
      parseUintLoop 10 false maxVal n ds = .ok (digitsVal n ds) := by
  intro ds
  induction ds with
  | nil => intro n _ _; simp [parseUintLoop, digitsVal]
  | cons c rest ih =>
    intro n hd hb
    obtain ⟨h0, h9⟩ := hd c (by simp)
    have hdv : digitVal c = some (c.toNat - 48) := by
      unfold digitVal
      rw [if_pos ⟨h0, h9⟩]
    have hd10 : c.toNat - 48 < 10 := by omega
    have hstep : digitsVal n (c :: rest) = digitsVal (n * 10 + (c.toNat - 48)) rest := by
      simp [digitsVal]
    have hb' : digitsVal (n * 10 + (c.toNat - 48)) rest ≤ maxVal := by
      rw [← hstep]; exact hb
    have hn1 : ¬ (n * 10 + (c.toNat - 48) > maxVal) := by
      have := digitsVal_le rest (n * 10 + (c.toNat - 48))
      omega
    simp only [parseUintLoop, hdv]
    rw [if_neg (by simp), if_neg (by omega), if_neg hn1, hstep]
    exact ih (n * 10 + (c.toNat - 48)) (fun x hx => hd x (List.mem_cons_of_mem c hx)) hb'

/-- `strconv.Atoi` on a plain, in-range decimal digit string. -/
theorem goAtoi_digits (ds : Str) (hne : ds ≠ [])
    (hd : ∀ c ∈ ds, 48 ≤ c.toNat ∧ c.toNat ≤ 57)
    (hb : digitsVal 0 ds < 2 ^ 63) :
    goAtoi ds = .ok (digitsVal 0 ds) := by
  rcases ds with _ | ⟨c, rest⟩
  · cases hne rfl
  · obtain ⟨h0, h9⟩ := hd c (by simp)
    have hplus : c ≠ '+' := by
      intro hh
      rw [hh] at h0
      exact absurd h0 (by decide)
    have hminus : c ≠ '-' := by
      intro hh
      rw [hh] at h0
      exact absurd h0 (by decide)
    have hloop := parseUintLoop_digits (2 ^ 64 - 1) (c :: rest) 0 hd (by omega)
    have hcut : digitsVal 0 (c :: rest) < 9223372036854775808 := by
      have hp : (2 : Nat) ^ 63 = 9223372036854775808 := by norm_num
      omega
    unfold goAtoi goParseInt goParseUint
    simp [hplus, hminus]
    rw [show (18446744073709551615 : Nat) = 2 ^ 64 - 1 by norm_num, hloop]
    simp [not_le.2 hcut]

theorem mem_of_getLast?_eq {α : Type} (l : List α) (a : α)
    (h : l.getLast? = some a) : a ∈ l := by
  induction l with
  | nil => simp at h
  | cons b rest ih =>
    rcases hr : rest with _ | ⟨c, rest'⟩
    · subst hr
      simp at h
      simp [h]
    · subst hr
      rw [List.getLast?_cons_cons] at h
      exact List.mem_cons_of_mem b (ih h)

/-- No-space strings are trim-invariant. -/
theorem trimSpace_eq_self_of_forall (s : Str) (h : ∀ c ∈ s, goIsSpace c = false) :
    trimSpace s = s :=
  trimSpace_eq_self s (fun c hc => h c (List.mem_of_mem_head? hc))
    (fun c hc => h c (mem_of_getLast?_eq s c hc))

theorem digit_not_space (c : Char) (h0 : 48 ≤ c.toNat) (h9 : c.toNat ≤ 57) :
    goIsSpace c = false := by
  by_contra hx
  have hsp : goIsSpace c = true := by simpa using hx
  simp [goIsSpace] at hsp
  rcases hsp with ((((((rfl | rfl) | rfl) | rfl) | rfl) | rfl) | rfl) | rfl <;>
    first
      | exact absurd h0 (by decide)
      | exact absurd h9 (by decide)

theorem render_not_space (t : NowTok) (hv : t.Valid) :
    ∀ c ∈ t.render, goIsSpace c = false := by
  intro c hc
  rw [NowTok.render] at hc
  rcases List.mem_cons.1 hc with rfl | hc
  · cases ht : t.plus <;> simp [ht] <;> decide
  · rcases List.mem_append.1 hc with hc | hc
    · obtain ⟨h0, h9⟩ := hv.2.1 c hc
      exact digit_not_space c h0 h9
    · simp at hc
      rcases hv.2.2.2 with hi | hi | hi <;> rw [hc, hi] <;> decide

theorem render_tail_no_sign (t : NowTok) (hv : t.Valid) :
    ∀ c ∈ t.digits ++ [t.ident], c ≠ '+' ∧ c ≠ '-' := by
  intro c hc
  rcases List.mem_append.1 hc with hc | hc
  · obtain ⟨h0, _⟩ := hv.2.1 c hc
    constructor <;> intro hh <;> rw [hh] at h0 <;> exact absurd h0 (by decide)
  · simp at hc
    rcases hv.2.2.2 with hi | hi | hi <;> rw [hc, hi] <;> exact ⟨by decide, by decide⟩

/-- The replacer turns each rendered token into the token preceded by
a single space. -/
theorem goReplace_render (t : NowTok) (hv : t.Valid) :
    goReplace t.render = ' ' :: t.render := by
  rw [NowTok.render]
  have htail := goReplace_eq_self (t.digits ++ [t.ident]) (render_tail_no_sign t hv)
  cases ht : t.plus <;> simp [goReplace, htail]

theorem goReplace_renderToks : ∀ (ts : List NowTok), (∀ t ∈ ts, t.Valid) →
    goReplace (renderToks ts) = ((ts.map (fun t => ' ' :: t.render)).flatten : Str) := by
  intro ts
  induction ts with
  | nil => intro _; rfl
  | cons t rest ih =>
    intro hv
    have h1 : renderToks (t :: rest) = t.render ++ renderToks rest := by
      simp [renderToks]
    rw [h1, goReplace_append, goReplace_render t (hv t (by simp)),
      ih (fun x hx => hv x (List.mem_cons_of_mem t hx))]
    simp

/-- Flattening space-prefixed parts is one leading space plus the
space-join of the parts. -/
theorem flatten_space_join : ∀ (rs : List Str), rs ≠ [] →
    ((rs.map (fun r => ' ' :: r)).flatten : Str) = ' ' :: goJoin [' '] rs := by
  intro rs
  induction rs with
  | nil => intro h; cases h rfl
  | cons r rest ih =>
    intro _
    rcases hr : rest with _ | ⟨q, rest'⟩
    · simp [goJoin]
    · have hne : rest ≠ [] := by rw [hr]; simp
      rw [← hr]
      simp only [List.map_cons, List.flatten_cons, ih hne]
      have : goJoin [' '] (r :: rest) = r ++ ' ' :: goJoin [' '] rest := by
        rw [hr]
        simp [goJoin]
      rw [this]
      simp

theorem goJoin_space_ne_nil (r : Str) (rest : List Str) (h : r ≠ []) :
    goJoin [' '] (r :: rest) ≠ [] := by
  cases rest <;> simp [goJoin, h]

theorem goJoin_space_head? (r : Str) (rest : List Str) (h : r ≠ []) :
    (goJoin [' '] (r :: rest)).head? = r.head? := by
  cases rest with
  | nil => rfl
  | cons q rest' =>
    rcases r with _ | ⟨a, as⟩
    · cases h rfl
    · simp [goJoin]

theorem goJoin_space_getLast? : ∀ (rs : List Str), (∀ p ∈ rs, p ≠ []) →
    ∀ r, rs.getLast? = some r → (goJoin [' '] rs).getLast? = r.getLast? := by
  intro rs
  induction rs with
  | nil => intro _ r h; simp at h
  | cons x rest ih =>
    intro hpne r hr
    rcases hrest : rest with _ | ⟨y, rest'⟩
    · rw [hrest] at hr
      simp at hr
      rw [hr]
      rfl
    · have hyne : y ≠ [] := by
        refine hpne y ?_
        rw [hrest]
        simp
      have hjoin_ne : goJoin [' '] (y :: rest') ≠ [] := goJoin_space_ne_nil y rest' hyne
      have hlast : (x :: rest).getLast? = rest.getLast? := by
        rw [hrest, List.getLast?_cons_cons]
      rw [hlast, hrest] at hr
      have hih := ih (by
        intro p hp
        exact hpne p (List.mem_cons_of_mem x hp)) r (by rw [hrest]; exact hr)
      rw [hrest] at hih
      have hshape : goJoin [' '] (x :: y :: rest') = x ++ ' ' :: goJoin [' '] (y :: rest') := by
        simp [goJoin]
      rw [hshape]
      obtain ⟨c, hc⟩ := Option.isSome_iff_exists.1
        (by simpa using hjoin_ne : (goJoin [' '] (y :: rest')).getLast?.isSome)
      rw [List.getLast?_append]
      have hcons : (' ' :: goJoin [' '] (y :: rest')).getLast? =
          (goJoin [' '] (y :: rest')).getLast? := by
        rcases hj : goJoin [' '] (y :: rest') with _ | ⟨a, as⟩
        · cases hjoin_ne hj
        · exact List.getLast?_cons_cons
      rw [hcons, hih]
      have hrmem : r ∈ x :: rest := by
        rw [hrest]
        exact List.mem_cons_of_mem x (mem_of_getLast?_eq _ r hr)
      have hrne : r ≠ [] := hpne r hrmem
      obtain ⟨c2, hc2⟩ := Option.isSome_iff_exists.1
        (by simpa using hrne : r.getLast?.isSome)
      rw [hc2]
      rfl

/-- Trimming the replacer's output recovers the space-join of the
(space-free, nonempty) parts. -/
theorem trimSpace_space_join (rs : List Str) (hne : rs ≠ [])
    (hpne : ∀ p ∈ rs, p ≠ []) (hnsp : ∀ p ∈ rs, ∀ c ∈ p, goIsSpace c = false) :
    trimSpace (' ' :: goJoin [' '] rs) = goJoin [' '] rs := by
  rw [trimSpace_cons_space]
  apply trimSpace_eq_self
  · intro c hc
    rcases rs with _ | ⟨r, rest⟩
    · cases hne rfl
    · rw [goJoin_space_head? r rest (hpne r (by simp))] at hc
      exact hnsp r (by simp) c (List.mem_of_mem_head? hc)
  · intro c hc
    obtain ⟨p, hp⟩ := Option.isSome_iff_exists.1
      (by simpa using hne : rs.getLast?.isSome)
    rw [goJoin_space_getLast? rs hpne p hp] at hc
    exact hnsp p (mem_of_getLast?_eq rs p hp) c (mem_of_getLast?_eq p c hc)

/-- The token loop of `parseTime` on rendered valid tokens: each
token *assigns* its identifier's accumulator (so the last occurrence
wins), and the loop succeeds. -/
theorem parseNowParts_render : ∀ (ts : List NowTok) (y m d : Int),
    (∀ t ∈ ts, t.Valid) →
    parseNowParts (ts.map NowTok.render) y m d =
      .ok (ts.foldl (fun acc t => if t.ident = 'y' then t.val else acc) y,
           ts.foldl (fun acc t => if t.ident = 'm' then t.val else acc) m,
           ts.foldl (fun acc t => if t.ident = 'd' then t.val else acc) d) := by
  intro ts
  induction ts with
  | nil => intro y m d _; simp [parseNowParts]
  | cons t rest ih =>
    intro y m d hv
    obtain ⟨hdne, hdig, hbound, hid⟩ := hv t (by simp)
    have hvrest : ∀ x ∈ rest, x.Valid := fun x hx => hv x (List.mem_cons_of_mem t hx)
    have hatoi := goAtoi_digits t.digits hdne hdig hbound
    have hrender : t.render = (if t.plus then '+' else '-') :: (t.digits ++ [t.ident]) := rfl
    have hlen : ¬ (t.render.length < 3) := by
      rcases hds : t.digits with _ | ⟨c0, ds⟩
      · exact absurd hds hdne
      · rw [hrender, hds]
        simp
    have hdrop : (t.render.drop 1).dropLast = t.digits := by
      rw [hrender]
      simp
    have hlast : t.render.getLast? = some t.ident := by
      rw [hrender, show ((if t.plus then '+' else '-') :: (t.digits ++ [t.ident])) =
        (((if t.plus then '+' else '-') :: t.digits) ++ [t.ident]) by simp]
      exact List.getLast?_concat _
    have hhead : t.render.head? = some (if t.plus then '+' else '-') := by
      rw [hrender]
      rfl
    have ih' := fun (a b c : Int) => ih a b c hvrest
    cases hp : t.plus
    · -- minus sign
      rw [hp] at hhead
      simp at hhead
      simp only [List.map_cons, parseNowParts, if_neg hlen, hhead, hdrop, hatoi, hlast]
      rcases hid with hi | hi | hi <;> rw [hi] <;> simp [ih', NowTok.val, hp, hi]
    · -- plus sign
      rw [hp] at hhead
      simp at hhead
      simp only [List.map_cons, parseNowParts, if_neg hlen, hhead, hdrop, hatoi, hlast]
      rcases hid with hi | hi | hi <;> rw [hi] <;> simp [ih', NowTok.val, hp, hi]

/-- **C3**: on every valid "now"-relative expression (`now` followed
by zero or more `[+-]<digits><y|m|d>` tokens), `parseTime` returns the
captured `now` with the parsed year/month/day deltas applied through
`AddDate`'s calendar-aware date arithmetic, where each identifier
receives the *last* occurrence's signed value (assignment, not
accumulation: `now+1y+2y` applies a 2-year delta). -/
theorem parseTime_now_relative (layout : Str) (now : GoDate) (ts : List NowTok)
    (hv : ∀ t ∈ ts, t.Valid) :
    parseTime layout ("now".toList ++ renderToks ts) now =
      .ok (if ts = [] then now
        else addDate now (lastDelta 'y' ts) (lastDelta 'm' ts) (lastDelta 'd' ts)) := by
  rcases ts with _ | ⟨t0, rest⟩
  · simp [renderToks, parseTime]
  · have hmapne : (t0 :: rest).map NowTok.render ≠ [] := by simp
    have hpne : ∀ p ∈ (t0 :: rest).map NowTok.render, p ≠ [] := by
      intro p hp
      rw [List.mem_map] at hp
      obtain ⟨t, _, rfl⟩ := hp
      rw [NowTok.render]
      simp
    have hnsp : ∀ p ∈ (t0 :: rest).map NowTok.render, ∀ c ∈ p, goIsSpace c = false := by
      intro p hp c hc
      rw [List.mem_map] at hp
      obtain ⟨t, htm, rfl⟩ := hp
      exact render_not_space t (hv t htm) c hc
    have hrnospace : ∀ c ∈ renderToks (t0 :: rest), goIsSpace c = false := by
      intro c hc
      rw [renderToks] at hc
      obtain ⟨p, hpm, hcp⟩ := List.mem_flatten.1 hc
      exact hnsp p hpm c hcp
    have hrne : renderToks (t0 :: rest) ≠ [] := by
      rw [renderToks]
      simp only [List.map_cons, List.flatten_cons]
      rw [NowTok.render]
      simp
    have hvalne : ("now".toList ++ renderToks (t0 :: rest)) ≠ "now".toList := by
      intro hh
      apply hrne
      have h2 : "now".toList ++ renderToks (t0 :: rest) = "now".toList ++ [] := by
        simpa using hh
      exact List.append_cancel_left h2
    have hpre : (("now".toList : Str).isPrefixOf
        ("now".toList ++ renderToks (t0 :: rest))) = true := by
      simp
    have hdrop3 : ("now".toList ++ renderToks (t0 :: rest)).drop 3 =
        renderToks (t0 :: rest) := by
      rw [show (3 : Nat) = ("now".toList : Str).length from rfl, List.drop_left]
    have hnsp' : ∀ p ∈ (t0 :: rest).map NowTok.render, ' ' ∉ p := by
      intro p hp hmem
      have hfalse := hnsp p hp ' ' hmem
      simp [goIsSpace] at hfalse
    rw [parseTime, if_neg hvalne, if_pos hpre, hdrop3,
      trimSpace_eq_self_of_forall _ hrnospace]
    have hflat : (((t0 :: rest).map (fun t => ' ' :: t.render)).flatten : Str) =
        ' ' :: goJoin [' '] ((t0 :: rest).map NowTok.render) := by
      rw [show ((t0 :: rest).map (fun t => ' ' :: t.render)) =
          ((t0 :: rest).map NowTok.render).map (fun r => ' ' :: r) by
            simp [List.map_map, Function.comp]]
      exact flatten_space_join _ hmapne
    have hv2 : trimSpace (goReplace (renderToks (t0 :: rest))) =
        goJoin [' '] ((t0 :: rest).map NowTok.render) := by
      rw [goReplace_renderToks _ hv, hflat, trimSpace_space_join _ hmapne hpne hnsp]
    simp only [hv2, goSplit_goJoin ' ' _ hmapne hnsp',
      parseNowParts_render _ 0 0 0 hv]
    simp [lastDelta]

/-- Witness for C3: `now+1y+2y-3d` from 2026-10-11 applies the
*second* year value (2, not 3), giving 2028-10-08. -/
theorem parseTime_now_relative_witness :
    parseTime [] ("now".toList ++
      renderToks [⟨true, ['1'], 'y'⟩, ⟨true, ['2'], 'y'⟩, ⟨false, ['3'], 'd'⟩])
      ⟨2026, 10, 11⟩ = .ok ⟨2028, 10, 8⟩ := by
  have h := parseTime_now_relative [] ⟨2026, 10, 11⟩
    [⟨true, ['1'], 'y'⟩, ⟨true, ['2'], 'y'⟩, ⟨false, ['3'], 'd'⟩] (by decide)
  rw [h]
  rfl

end Urlvalues
